import Mathlib

/-!
# dumbmap-2d: a two-level map with finalizers and a diff/sync operation

A shallow embedding of `vendor/github.com/zenhotels/dumbmap-2d/dumbmap2d.go`.

* A Go `map[K]V` is an association list; `mget`, `mset`, `mdel` are the Go
  primitives `m[k]`, `m[k] = v`, `delete(m, k)`.  A `range` loop walks a list
  of keys and skips a key whose entry has been removed before it is reached.
* A pointer to a layer is the key under which the layer is stored: mutating
  the layer through the pointer is `mset` of the new layer value.  No
  statement of the source stores a nil pointer (every stored pointer comes
  from `NewSecondaryLayer()`), so stored layers are plain values.
* Finalizers and callbacks are closures with effects; running one is recorded
  as an `Event` in a trace, finalizers being named by a value of type `F`.
* The locks are left out: every operation runs to completion under its lock.
-/

set_option linter.unusedSectionVars false

namespace Dumbmap2d

/-! ## Definitions -/

/-- Observable effects: a finalizer ran, or one of the Sync callbacks was invoked. -/
inductive Event (K1 K2 F : Type) where
  | fin (f : F)
  | add (key1 : K1) (key2 : K2)
  | del (key1 : K1) (key2 : K2)
deriving DecidableEq, Repr

section GoMap

variable {K V : Type} [DecidableEq K]

/-- Go map read `v, ok := m[k]`. -/
def mget (k : K) : List (K × V) → Option V
  | [] => none
  | (k', v) :: t => if k' = k then some v else mget k t

/-- Go builtin `delete(m, k)`. -/
def mdel (k : K) : List (K × V) → List (K × V)
  | [] => []
  | (k', v) :: t => if k' = k then mdel k t else (k', v) :: mdel k t

/-- Go map write `m[k] = v`. -/
def mset (k : K) (v : V) : List (K × V) → List (K × V)
  | [] => [(k, v)]
  | (k', v') :: t => if k' = k then (k, v) :: t else (k', v') :: mset k v t

/-- Keys of a Go map, in the order a `range` loop visits them. -/
def mkeys (m : List (K × V)) : List K := m.map Prod.fst

end GoMap

/-- Result of a sync: both maps after the call and the effects it produced. -/
structure SyncResult (S E : Type) where
  prev : S
  next : S
  events : List E
deriving DecidableEq, Repr

/-- Result of a removing operation: the map afterwards, the returned bool, the effects. -/
structure OpResult (S E : Type) where
  store : S
  ok : Bool
  events : List E
deriving DecidableEq, Repr

section Leaf

variable {K1 K2 F : Type} [DecidableEq K2]

/-- Modelled from the spec: the type `FinalizerList` (declared outside
`dumbmap2d.go`), "an ordered list of zero-argument finalizer actions". -/
abbrev FinalizerList (F : Type) := List F

/-- Modelled from the spec: the type `SecondaryLayer` (declared outside
`dumbmap2d.go`), "a mapping from secondary key to an ordered list of
zero-argument finalizer actions". -/
abbrev SecondaryLayer (K2 F : Type) := List (K2 × FinalizerList F)

/-- Modelled from the spec: `NewSecondaryLayer()`, a layer "created empty". -/
def NewSecondaryLayer : SecondaryLayer K2 F := []

/-- Running the finalizers of one entry, in list order. -/
def runFinalizers (fs : FinalizerList F) : List (Event K1 K2 F) := fs.map Event.fin

/-- Invoking a leaf-level callback, if one is supplied. -/
def callback (cb : Option (K2 → Event K1 K2 F)) (key2 : K2) : List (Event K1 K2 F) :=
  match cb with
  | some f => [f key2]
  | none => []

/-- Modelled from the spec: `SecondaryLayer.Put`, "inserts key2 if absent (with
an empty finalizer list) then appends the supplied finalizers to that key's
list"; finalizers are not invoked. -/
def SecondaryLayer.Put (l : SecondaryLayer K2 F) (key2 : K2) (finalizers : List F) :
    SecondaryLayer K2 F :=
  match mget key2 l with
  | some fl => mset key2 (fl ++ finalizers) l
  | none => mset key2 ([] ++ finalizers) l

/-- Modelled from the spec: `SecondaryLayer.Delete`, "if key2 present, invoke
every attached finalizer in list order exactly once, remove the entry, return
true; else return false (no-op)". -/
def SecondaryLayer.Delete (l : SecondaryLayer K2 F) (key2 : K2) :
    OpResult (SecondaryLayer K2 F) (Event K1 K2 F) :=
  match mget key2 l with
  | some fl => ⟨mdel key2 l, true, runFinalizers fl⟩
  | none => ⟨l, false, []⟩

/-- Modelled from the spec: `SecondaryLayer.Len`, "current count of secondary keys". -/
def SecondaryLayer.Len (l : SecondaryLayer K2 F) : Nat := l.length

/-- Modelled from the spec: `SecondaryLayer.Finalize`, "fires every finalizer
for every key (in unspecified key order, preserving per-key list order) and
clears the layer".  The result is the cleared layer and the effects. -/
def SecondaryLayer.Finalize (l : SecondaryLayer K2 F) :
    SecondaryLayer K2 F × List (Event K1 K2 F) :=
  ([], l.flatMap (fun e => runFinalizers e.2))

/-- Modelled from the spec: `SecondaryLayer.ForEach`, "enumerate (key2,
finalizer-list) pairs; caller's callback may early-terminate enumeration by
returning false".  The result is the list of invocations of `fn`. -/
def SecondaryLayer.ForEach :
    SecondaryLayer K2 F → (K2 → FinalizerList F → Bool) → List (K2 × FinalizerList F)
  | [], _ => []
  | (k, fl) :: rest, fn =>
    if fn k fl then (k, fl) :: SecondaryLayer.ForEach rest fn else [(k, fl)]

/-- Modelled from the spec: `SecondaryLayer.Sync`, the leaf diff of section 4.1.
Step 1: every key of `prev` absent in `next` is deleted: the deletion callback
is invoked if supplied, the finalizers of the removed key fire, the key is
removed from `prev`.  Step 2: every key of `next` absent in `prev` is added:
the addition callback is invoked if supplied and the entry is materialized in
`prev` (as `Put` inserts an absent key: with an empty finalizer list, the
finalizers staying owned by `next`).  Keys present in both are left alone,
`next` is read-only, and the structural merge does not depend on the
callbacks being supplied. -/
def SecondaryLayer.Sync (prev next : SecondaryLayer K2 F)
    (onAdd onDel : Option (K2 → Event K1 K2 F)) :
    SyncResult (SecondaryLayer K2 F) (Event K1 K2 F) :=
  let removed := prev.filter (fun e => (mget e.1 next).isNone)
  let kept := prev.filter (fun e => (mget e.1 next).isSome)
  let added := next.filter (fun e => (mget e.1 prev).isNone)
  ⟨kept ++ added.map (fun e => (e.1, [])), next,
    removed.flatMap (fun e => callback onDel e.1 ++ runFinalizers e.2)
      ++ added.flatMap (fun e => callback onAdd e.1)⟩

end Leaf

section Root

variable {K1 K2 F : Type} [DecidableEq K1] [DecidableEq K2]

/-- The struct `dumbmap2d`: its `store`, a Go map from primary key to layer. -/
abbrev dumbmap2d (K1 K2 F : Type) := List (K1 × SecondaryLayer K2 F)

/-- Constructor `New()`: an empty store. -/
def New : dumbmap2d K1 K2 F := []

/-- The package variable `emptyLayer = SecondaryLayer{}`. -/
def emptyLayer : SecondaryLayer K2 F := []

/-- The `switch` of `Sync` ("partial sync"): the leaf sync of `layer` against
`nextLayer`, each callback wrapped with the primary key when it is not nil. -/
def partialSync (key : K1) (layer nextLayer : SecondaryLayer K2 F)
    (onAdd onDel : Option (K1 → K2 → Event K1 K2 F)) :
    SyncResult (SecondaryLayer K2 F) (Event K1 K2 F) :=
  match onAdd, onDel with
  | none, none => SecondaryLayer.Sync layer nextLayer none none
  | none, some d => SecondaryLayer.Sync layer nextLayer none (some (fun key2 => d key key2))
  | some a, none => SecondaryLayer.Sync layer nextLayer (some (fun key2 => a key key2)) none
  | some a, some d =>
    SecondaryLayer.Sync layer nextLayer (some (fun key2 => a key key2))
      (some (fun key2 => d key key2))

/-- Body of the first loop of `Sync`, `for key, layer := range prev.store`,
for one key; a key whose entry is gone from `prev.store` is not produced. -/
def syncPrevBody (onAdd onDel : Option (K1 → K2 → Event K1 K2 F))
    (st : SyncResult (dumbmap2d K1 K2 F) (Event K1 K2 F)) (key : K1) :
    SyncResult (dumbmap2d K1 K2 F) (Event K1 K2 F) :=
  match mget key st.prev with
  | none => st
  | some layer =>
    match mget key st.next with
    | none =>
      -- deleted in the next revision
      let nextLayer : SecondaryLayer K2 F := NewSecondaryLayer
      let prev1 := mdel key st.prev
      match onDel with
      | some d =>
        let r := SecondaryLayer.Sync layer nextLayer none (some (fun key2 => d key key2))
        ⟨prev1, st.next, st.events ++ r.events⟩
      | none => ⟨prev1, st.next, st.events⟩
    | some nextLayer =>
      let r := partialSync key layer nextLayer onAdd onDel
      ⟨mset key r.prev st.prev, mset key r.next st.next, st.events ++ r.events⟩

/-- Body of the second loop of `Sync`, `for key, layer := range next.store`,
for one key. -/
def syncNextBody (onAdd onDel : Option (K1 → K2 → Event K1 K2 F))
    (st : SyncResult (dumbmap2d K1 K2 F) (Event K1 K2 F)) (key : K1) :
    SyncResult (dumbmap2d K1 K2 F) (Event K1 K2 F) :=
  match mget key st.next with
  | none => st
  | some layer =>
    match mget key st.prev with
    | none =>
      -- added in the next revision
      let prevLayer : SecondaryLayer K2 F := NewSecondaryLayer
      let prev1 := mset key prevLayer st.prev
      match onAdd with
      | some a =>
        let r := SecondaryLayer.Sync prevLayer layer (some (fun key2 => a key key2)) none
        ⟨mset key r.prev prev1, mset key r.next st.next, st.events ++ r.events⟩
      | none => ⟨prev1, st.next, st.events⟩
    | some prevLayer =>
      let r := partialSync key prevLayer layer onAdd onDel
      ⟨mset key r.prev st.prev, mset key r.next st.next, st.events ++ r.events⟩

/-- First loop of `Sync`, visiting the keys in the given order. -/
def syncPrevLoop (onAdd onDel : Option (K1 → K2 → Event K1 K2 F)) (keys : List K1)
    (st : SyncResult (dumbmap2d K1 K2 F) (Event K1 K2 F)) :
    SyncResult (dumbmap2d K1 K2 F) (Event K1 K2 F) :=
  keys.foldl (syncPrevBody onAdd onDel) st

/-- Second loop of `Sync`, visiting the keys in the given order. -/
def syncNextLoop (onAdd onDel : Option (K1 → K2 → Event K1 K2 F)) (keys : List K1)
    (st : SyncResult (dumbmap2d K1 K2 F) (Event K1 K2 F)) :
    SyncResult (dumbmap2d K1 K2 F) (Event K1 K2 F) :=
  keys.foldl (syncNextBody onAdd onDel) st

/-- Method `(prev *dumbmap2d) Sync(nextMap, onAdd, onDel)`: the first loop ranges
over the keys of `prev.store`, the second over the keys of `next.store`. -/
def Sync (prev next : dumbmap2d K1 K2 F)
    (onAdd onDel : Option (K1 → K2 → Event K1 K2 F)) :
    SyncResult (dumbmap2d K1 K2 F) (Event K1 K2 F) :=
  let st1 := syncPrevLoop onAdd onDel (mkeys prev) ⟨prev, next, []⟩
  syncNextLoop onAdd onDel (mkeys st1.next) st1

/-- Method `ForEach(fn)`: `fn` is called for every entry and its result is dropped.
The result is the list of invocations of `fn`.  The branch passing `emptyLayer`
for a nil layer is not modelled: no stored layer is nil. -/
def ForEach : dumbmap2d K1 K2 F → (K1 → SecondaryLayer K2 F → Bool) →
    List (K1 × SecondaryLayer K2 F)
  | [], _ => []
  | (key, layer) :: rest, fn =>
    let _ := fn key layer
    (key, layer) :: ForEach rest fn

/-- Method `ForEach2(key1, fn)`: the secondary keys passed to `fn`. -/
def ForEach2 (b : dumbmap2d K1 K2 F) (key1 : K1) (fn : K2 → Bool) : List K2 :=
  match mget key1 b with
  | some layer => (SecondaryLayer.ForEach layer (fun k _ => fn k)).map Prod.fst
  | none => []

/-- Method `Drop(key1)`: finalize the layer of `key1` if there is one, then delete the key. -/
def Drop (b : dumbmap2d K1 K2 F) (key1 : K1) :
    OpResult (dumbmap2d K1 K2 F) (Event K1 K2 F) :=
  match mget key1 b with
  | some layer =>
    let r : SecondaryLayer K2 F × List (Event K1 K2 F) := SecondaryLayer.Finalize layer
    ⟨mdel key1 (mset key1 r.1 b), true, r.2⟩
  | none => ⟨mdel key1 b, false, []⟩

/-- Method `Put(key1, key2, finalizers...)`: create the layer if absent, then put into it. -/
def Put (b : dumbmap2d K1 K2 F) (key1 : K1) (key2 : K2) (finalizers : List F) :
    dumbmap2d K1 K2 F :=
  match mget key1 b with
  | some layer => mset key1 (SecondaryLayer.Put layer key2 finalizers) b
  | none =>
    let layer : SecondaryLayer K2 F := NewSecondaryLayer
    mset key1 (SecondaryLayer.Put layer key2 finalizers) (mset key1 layer b)

/-- Method `Delete(key1, key2)`: delete in the layer, then drop the layer if it is empty. -/
def Delete (b : dumbmap2d K1 K2 F) (key1 : K1) (key2 : K2) :
    OpResult (dumbmap2d K1 K2 F) (Event K1 K2 F) :=
  match mget key1 b with
  | some layer =>
    let r : OpResult (SecondaryLayer K2 F) (Event K1 K2 F) := SecondaryLayer.Delete layer key2
    let b1 := mset key1 r.store b
    if SecondaryLayer.Len r.store = 0 then ⟨mdel key1 b1, r.ok, r.events⟩
    else ⟨b1, r.ok, r.events⟩
  | none => ⟨b, false, []⟩

/-- One mutating call of the public interface other than `Sync`. -/
inductive Op (K1 K2 F : Type) where
  | put (key1 : K1) (key2 : K2) (finalizers : List F)
  | delete (key1 : K1) (key2 : K2)
  | drop (key1 : K1)
deriving DecidableEq, Repr

/-- The map after one call. -/
def Op.apply (b : dumbmap2d K1 K2 F) : Op K1 K2 F → dumbmap2d K1 K2 F
  | Op.put key1 key2 finalizers => Put b key1 key2 finalizers
  | Op.delete key1 key2 => (Delete b key1 key2).store
  | Op.drop key1 => (Drop b key1).store

/-- The map built from `New()` by a sequence of `Put`/`Delete`/`Drop` calls. -/
def build (ops : List (Op K1 K2 F)) : dumbmap2d K1 K2 F :=
  ops.foldl Op.apply New

/-- The (primaryKey, secondaryKey) pairs enumerated from a map: `ForEach` over
the primary keys and the layer's `ForEach` over each layer, never stopping. -/
def pairs (b : dumbmap2d K1 K2 F) : List (K1 × K2) :=
  (ForEach b (fun _ _ => true)).flatMap
    (fun c => (SecondaryLayer.ForEach c.2 (fun _ _ => true)).map (fun e => (c.1, e.1)))

/-- Whether the pair `(key1, key2)` is in the map. -/
def hasPair (b : dumbmap2d K1 K2 F) (key1 : K1) (key2 : K2) : Bool :=
  match mget key1 b with
  | some layer => (mget key2 layer).isSome
  | none => false

/-- The finalizer list attached to a pair, if the pair is in the map. -/
def finalizersOf (b : dumbmap2d K1 K2 F) (key1 : K1) (key2 : K2) : Option (FinalizerList F) :=
  match mget key1 b with
  | some layer => mget key2 layer
  | none => none

/-- The callback argument of `Sync`: nil, or a function recording its call. -/
def supplied (given : Bool) (record : K1 → K2 → Event K1 K2 F) :
    Option (K1 → K2 → Event K1 K2 F) :=
  if given then some record else none

end Root

section Analysis

variable {K1 K2 F : Type} [DecidableEq K1] [DecidableEq K2]

/-- The layer `prev` holds under `key` once the body of the first loop has run
for `key`, from the layers `prev` and `next` held under `key` before. -/
def prevBodyLayer (onAdd onDel : Option (K1 → K2 → Event K1 K2 F)) (key : K1)
    (lp ln : Option (SecondaryLayer K2 F)) : Option (SecondaryLayer K2 F) :=
  match lp, ln with
  | some layer, some nextLayer => some (partialSync key layer nextLayer onAdd onDel).prev
  | _, _ => none

/-- The effects of the body of the first loop for `key`. -/
def prevBodyEvents (onAdd onDel : Option (K1 → K2 → Event K1 K2 F)) (key : K1)
    (lp ln : Option (SecondaryLayer K2 F)) : List (Event K1 K2 F) :=
  match lp, ln with
  | some layer, some nextLayer => (partialSync key layer nextLayer onAdd onDel).events
  | some layer, none =>
    match onDel with
    | some d =>
      (SecondaryLayer.Sync layer NewSecondaryLayer none (some (fun key2 => d key key2))).events
    | none => []
  | none, _ => []

/-- The layer `prev` holds under `key` once the body of the second loop has run
for `key`, from the layers `prev` and `next` held under `key` before. -/
def nextBodyLayer (onAdd onDel : Option (K1 → K2 → Event K1 K2 F)) (key : K1)
    (lp ln : Option (SecondaryLayer K2 F)) : Option (SecondaryLayer K2 F) :=
  match ln, lp with
  | none, _ => lp
  | some layer, none =>
    match onAdd with
    | some a =>
      some (SecondaryLayer.Sync NewSecondaryLayer layer (some (fun key2 => a key key2)) none).prev
    | none => some NewSecondaryLayer
  | some layer, some prevLayer => some (partialSync key prevLayer layer onAdd onDel).prev

/-- The effects of the body of the second loop for `key`. -/
def nextBodyEvents (onAdd onDel : Option (K1 → K2 → Event K1 K2 F)) (key : K1)
    (lp ln : Option (SecondaryLayer K2 F)) : List (Event K1 K2 F) :=
  match ln, lp with
  | none, _ => []
  | some layer, none =>
    match onAdd with
    | some a =>
      (SecondaryLayer.Sync NewSecondaryLayer layer (some (fun key2 => a key key2)) none).events
    | none => []
  | some layer, some prevLayer => (partialSync key prevLayer layer onAdd onDel).events

end Analysis

section Invariants

variable {K1 K2 F : Type} [DecidableEq K1] [DecidableEq K2]

/-- A Go map holds a key once: primary keys are distinct in the store and
secondary keys are distinct in every layer. -/
def KeysUnique (b : dumbmap2d K1 K2 F) : Prop :=
  (mkeys b).Nodup ∧ ∀ e ∈ b, (mkeys e.2).Nodup

/-- No primary key is mapped to a layer with zero secondary keys. -/
def NoEmptyLayer (b : dumbmap2d K1 K2 F) : Prop :=
  ∀ e ∈ b, SecondaryLayer.Len e.2 ≠ 0

end Invariants

section Scenario

/-- Map A of the concrete scenario: `{(1,"x"), (1,"y"), (2,"z")}`. -/
def scenarioA : dumbmap2d Nat String Nat :=
  build [Op.put 1 "x" [], Op.put 1 "y" [], Op.put 2 "z" []]

/-- Map B of the concrete scenario: `{(1,"x"), (3,"w")}`. -/
def scenarioB : dumbmap2d Nat String Nat :=
  build [Op.put 1 "x" [], Op.put 3 "w" []]

/-- A map holding the single pair `(1,"x")`, with no finalizer. -/
def singleX : dumbmap2d Nat String Nat := build [Op.put 1 "x" []]

/-- A map holding the single pair `(2,"z")`, with the finalizer named 13 attached. -/
def singleZ : dumbmap2d Nat String Nat := build [Op.put 2 "z" [13]]

end Scenario

section Further

variable {K1 K2 F : Type} [DecidableEq K1] [DecidableEq K2]

/-- Method `SetLayer(key1, layer)`, whose body is the single statement
`panic("not implemented")`: the result is the store at the point of the
panic and the failure. -/
def SetLayer (b : dumbmap2d K1 K2 F) (_key1 : K1) (_layer : SecondaryLayer K2 F) :
    dumbmap2d K1 K2 F × Except String Unit :=
  (b, Except.error "not implemented")

/-- Method `GetLayer(key1)`, whose body is the single statement
`panic("not implemented")`: the result is the store at the point of the
panic and the failure in place of the `(SecondaryLayer, bool)` it declares. -/
def GetLayer (b : dumbmap2d K1 K2 F) (_key1 : K1) :
    dumbmap2d K1 K2 F × Except String (SecondaryLayer K2 F × Bool) :=
  (b, Except.error "not implemented")

/-- Method `Sync` with the orders in which its two `range` loops visit the
primary keys given explicitly: `ord1` for `range prev.store`, `ord2` for
`range next.store`. -/
def SyncOrd (ord1 ord2 : List K1) (prev next : dumbmap2d K1 K2 F)
    (onAdd onDel : Option (K1 → K2 → Event K1 K2 F)) :
    SyncResult (dumbmap2d K1 K2 F) (Event K1 K2 F) :=
  syncNextLoop onAdd onDel ord2 (syncPrevLoop onAdd onDel ord1 ⟨prev, next, []⟩)

/-- The map `prev` already agrees with `next`: same primary keys, and under
each primary key the same secondary keys. -/
def Synced (prev next : dumbmap2d K1 K2 F) : Prop :=
  (∀ k, (mget k prev).isSome = (mget k next).isSome)
    ∧ ∀ k l nl, mget k prev = some l → mget k next = some nl →
        ∀ k2, (mget k2 l).isSome = (mget k2 nl).isSome

end Further

/-! ## Theorems -/

/-! ## Go map primitives -/

section GoMapLemmas

variable {K V : Type} [DecidableEq K]

theorem mget_mdel (k k' : K) (m : List (K × V)) :
    mget k' (mdel k m) = if k' = k then none else mget k' m := by
  induction m with
  | nil => simp [mdel, mget]
  | cons e t ih =>
    obtain ⟨a, v⟩ := e
    by_cases h : a = k
    · by_cases h' : k' = k
      · subst h'
        simpa [mdel, h] using ih
      · have hk : ¬ k = k' := fun c => h' c.symm
        simpa [mdel, mget, h, h', hk] using ih
    · by_cases h' : k' = k
      · subst h'
        simpa [mdel, mget, h] using ih
      · simp only [mdel, h, if_false, mget, h'] at ih ⊢
        rw [ih]

theorem mget_mset (k k' : K) (v : V) (m : List (K × V)) :
    mget k' (mset k v m) = if k' = k then some v else mget k' m := by
  induction m with
  | nil =>
    by_cases h' : k' = k
    · simp [mset, mget, h']
    · have : ¬ k = k' := fun c => h' c.symm
      simp [mset, mget, h', this]
  | cons e t ih =>
    obtain ⟨a, w⟩ := e
    by_cases h : a = k
    · by_cases h' : k' = k
      · simp [mset, mget, h, h']
      · have : ¬ k = k' := fun c => h' c.symm
        simp [mset, mget, h, h', this]
    · by_cases h' : k' = k
      · subst h'
        simp [mset, mget, h, ih]
      · simp [mset, mget, h, ih, h']

theorem mset_mget_self (k : K) (v : V) (m : List (K × V)) (h : mget k m = some v) :
    mset k v m = m := by
  induction m with
  | nil => simp [mget] at h
  | cons e t ih =>
    obtain ⟨a, w⟩ := e
    by_cases ha : a = k
    · simp [mget, ha] at h
      simp [mset, ha, h]
    · simp [mget, ha] at h
      simp [mset, ha, ih h]

theorem mget_isSome_iff (k : K) (m : List (K × V)) :
    (mget k m).isSome = true ↔ k ∈ mkeys m := by
  induction m with
  | nil => simp [mget, mkeys]
  | cons e t ih =>
    obtain ⟨a, w⟩ := e
    by_cases ha : a = k
    · simp [mget, mkeys, ha]
    · have : ¬ k = a := fun c => ha c.symm
      simp only [mkeys] at ih
      simp [mget, mkeys, ha, this, ih]

theorem mget_eq_none_iff (k : K) (m : List (K × V)) :
    mget k m = none ↔ k ∉ mkeys m := by
  rw [← mget_isSome_iff]
  cases mget k m <;> simp

theorem mget_isNone_iff (k : K) (m : List (K × V)) :
    (mget k m).isNone = true ↔ k ∉ mkeys m := by
  rw [← mget_isSome_iff]
  cases mget k m <;> simp

theorem mem_of_mget (k : K) (v : V) (m : List (K × V)) (h : mget k m = some v) :
    (k, v) ∈ m := by
  induction m with
  | nil => simp [mget] at h
  | cons e t ih =>
    obtain ⟨a, w⟩ := e
    by_cases ha : a = k
    · simp [mget, ha] at h
      simp [ha, h]
    · simp [mget, ha] at h
      exact List.mem_cons_of_mem _ (ih h)

theorem mget_of_mem (k : K) (v : V) (m : List (K × V)) (hnd : (mkeys m).Nodup)
    (h : (k, v) ∈ m) : mget k m = some v := by
  induction m with
  | nil => simp at h
  | cons e t ih =>
    obtain ⟨a, w⟩ := e
    simp only [mkeys, List.map_cons, List.nodup_cons] at hnd
    rcases List.mem_cons.mp h with heq | hin
    · cases heq
      simp [mget]
    · have hne : a ≠ k := by
        intro c
        subst c
        exact hnd.1 (List.mem_map_of_mem Prod.fst hin)
      simp only [mget, hne, if_false]
      exact ih hnd.2 hin

theorem mem_mkeys_mdel (k k' : K) (m : List (K × V)) :
    k' ∈ mkeys (mdel k m) ↔ k' ≠ k ∧ k' ∈ mkeys m := by
  rw [← mget_isSome_iff, ← mget_isSome_iff, mget_mdel]
  by_cases h : k' = k <;> simp [h]

theorem mem_mkeys_mset (k k' : K) (v : V) (m : List (K × V)) :
    k' ∈ mkeys (mset k v m) ↔ k' = k ∨ k' ∈ mkeys m := by
  rw [← mget_isSome_iff, ← mget_isSome_iff, mget_mset]
  by_cases h : k' = k <;> simp [h]

theorem mdel_sublist (k : K) (m : List (K × V)) : List.Sublist (mdel k m) m := by
  induction m with
  | nil => simp [mdel]
  | cons e t ih =>
    obtain ⟨a, w⟩ := e
    by_cases ha : a = k
    · simp only [mdel, ha, if_true]
      exact List.Sublist.cons _ ih
    · simp only [mdel, ha, if_false]
      exact List.Sublist.cons₂ _ ih

theorem nodup_mkeys_mdel (k : K) (m : List (K × V)) (hnd : (mkeys m).Nodup) :
    (mkeys (mdel k m)).Nodup :=
  List.Nodup.sublist (List.Sublist.map Prod.fst (mdel_sublist k m)) hnd

theorem nodup_mkeys_mset (k : K) (v : V) (m : List (K × V)) (hnd : (mkeys m).Nodup) :
    (mkeys (mset k v m)).Nodup := by
  induction m with
  | nil => simp [mset, mkeys]
  | cons e t ih =>
    obtain ⟨a, w⟩ := e
    have hnd' := hnd
    simp only [mkeys, List.map_cons, List.nodup_cons] at hnd'
    by_cases ha : a = k
    · subst ha
      simpa [mset, mkeys] using hnd
    · simp only [mset, ha, if_false, mkeys, List.map_cons, List.nodup_cons]
      refine ⟨?_, ih hnd'.2⟩
      intro hmem
      have := (mem_mkeys_mset k a v t).mp hmem
      rcases this with h | h
      · exact ha h
      · exact hnd'.1 h

theorem mem_mdel (k : K) (e : K × V) (m : List (K × V)) (h : e ∈ mdel k m) :
    e ∈ m ∧ e.1 ≠ k := by
  induction m with
  | nil => simp [mdel] at h
  | cons x t ih =>
    obtain ⟨a, w⟩ := x
    by_cases ha : a = k
    · simp only [mdel, ha, if_true] at h
      exact ⟨List.mem_cons_of_mem _ (ih h).1, (ih h).2⟩
    · simp only [mdel, ha, if_false] at h
      rcases List.mem_cons.mp h with heq | hin
      · subst heq
        exact ⟨List.mem_cons_self _ _, ha⟩
      · exact ⟨List.mem_cons_of_mem _ (ih hin).1, (ih hin).2⟩

theorem mem_mset (k : K) (v : V) (e : K × V) (m : List (K × V)) (h : e ∈ mset k v m) :
    e = (k, v) ∨ e ∈ m := by
  induction m with
  | nil =>
    simp only [mset, List.mem_singleton] at h
    exact Or.inl h
  | cons x t ih =>
    obtain ⟨a, w⟩ := x
    by_cases ha : a = k
    · simp only [mset, ha, if_true] at h
      rcases List.mem_cons.mp h with heq | hin
      · exact Or.inl heq
      · exact Or.inr (List.mem_cons_of_mem _ hin)
    · simp only [mset, ha, if_false] at h
      rcases List.mem_cons.mp h with heq | hin
      · exact Or.inr (by rw [heq]; exact List.mem_cons_self _ _)
      · rcases ih hin with h1 | h1
        · exact Or.inl h1
        · exact Or.inr (List.mem_cons_of_mem _ h1)

theorem mdel_eq_nil_of_keys (k : K) (m : List (K × V)) (h : ∀ x ∈ mkeys m, x = k) :
    mdel k m = [] := by
  induction m with
  | nil => simp [mdel]
  | cons e t ih =>
    obtain ⟨a, w⟩ := e
    have ha : a = k := h a (by simp [mkeys])
    simp only [mdel, ha, if_true]
    exact ih (fun x hx => h x (by simp only [mkeys, List.map_cons] at hx ⊢; exact List.mem_cons_of_mem _ hx))

end GoMapLemmas

/-! ## The leaf layer -/

section LeafLemmas

variable {K V W : Type} [DecidableEq K]

theorem mget_append (k : K) (m1 m2 : List (K × V)) :
    mget k (m1 ++ m2) = if (mget k m1).isSome then mget k m1 else mget k m2 := by
  induction m1 with
  | nil => simp [mget]
  | cons e t ih =>
    obtain ⟨a, w⟩ := e
    by_cases ha : a = k
    · simp [mget, ha]
    · simpa [mget, ha] using ih

theorem mget_filter_key (k : K) (q : K → Bool) (m : List (K × V)) :
    mget k (m.filter (fun e => q e.1)) = if q k then mget k m else none := by
  induction m with
  | nil => simp [mget]
  | cons e t ih =>
    obtain ⟨a, w⟩ := e
    by_cases hq : q a = true
    · by_cases ha : a = k
      · subst ha
        simp [List.filter_cons, hq, mget]
      · simpa [List.filter_cons, hq, mget, ha] using ih
    · by_cases ha : a = k
      · subst ha
        simpa [List.filter_cons, hq, mget] using ih
      · simpa [List.filter_cons, hq, mget, ha] using ih

theorem mget_map_val (k : K) (f : K × V → W) (m : List (K × V)) :
    mget k (m.map (fun e => (e.1, f e))) = (mget k m).map (fun v => f (k, v)) := by
  induction m with
  | nil => simp [mget]
  | cons e t ih =>
    obtain ⟨a, w⟩ := e
    by_cases ha : a = k
    · subst ha
      simp [mget]
    · simpa [mget, ha] using ih

theorem mkeys_filter_key (q : K → Bool) (m : List (K × V)) :
    mkeys (m.filter (fun e => q e.1)) = (mkeys m).filter q := by
  induction m with
  | nil => simp [mkeys]
  | cons e t ih =>
    obtain ⟨a, w⟩ := e
    simp only [mkeys] at ih
    by_cases hq : q a = true
    · simp [mkeys, List.filter_cons, hq, ih]
    · simp [mkeys, List.filter_cons, hq, ih]

theorem count_mkeys_filter_key (k : K) (q : K → Bool) (m : List (K × V))
    (hnd : (mkeys m).Nodup) :
    List.count k (mkeys (m.filter (fun e => q e.1)))
      = if q k = true ∧ (mget k m).isSome = true then 1 else 0 := by
  rw [mkeys_filter_key]
  by_cases hq : q k = true
  · rw [List.count_filter hq, List.count_eq_of_nodup hnd]
    simp only [hq, true_and, mget_isSome_iff]
  · have : k ∉ (mkeys m).filter q := by
      intro hmem
      exact hq (List.mem_filter.mp hmem).2
    rw [List.count_eq_zero_of_not_mem this]
    simp [hq]

end LeafLemmas

section LeafSync

variable {K1 K2 F : Type} [DecidableEq K1] [DecidableEq K2] [DecidableEq F]

theorem leafSync_next (p n : SecondaryLayer K2 F) (a d : Option (K2 → Event K1 K2 F)) :
    (SecondaryLayer.Sync p n a d).next = n := rfl

theorem mget_leafSync_prev (k : K2) (p n : SecondaryLayer K2 F)
    (a d : Option (K2 → Event K1 K2 F)) :
    mget k (SecondaryLayer.Sync p n a d).prev
      = if (mget k n).isSome then some ((mget k p).getD []) else none := by
  simp only [SecondaryLayer.Sync]
  rw [mget_append, mget_filter_key k (fun x => (mget x n).isSome) p,
    mget_map_val k (fun _ => ([] : FinalizerList F)),
    mget_filter_key k (fun x => (mget x p).isNone) n]
  cases hn : mget k n <;> cases hp : mget k p <;> simp

theorem isSome_mget_leafSync_prev (k : K2) (p n : SecondaryLayer K2 F)
    (a d : Option (K2 → Event K1 K2 F)) :
    (mget k (SecondaryLayer.Sync p n a d).prev).isSome = (mget k n).isSome := by
  rw [mget_leafSync_prev]
  cases mget k n <;> simp

theorem leafSync_of_same_keys (p n : SecondaryLayer K2 F) (a d : Option (K2 → Event K1 K2 F))
    (h : ∀ k, (mget k p).isSome = (mget k n).isSome) :
    SecondaryLayer.Sync p n a d = ⟨p, n, []⟩ := by
  have h1 : p.filter (fun e => (mget e.1 n).isNone) = [] := by
    rw [List.filter_eq_nil_iff]
    intro e he
    have hk : (mget e.1 p).isSome = true :=
      (mget_isSome_iff e.1 p).mpr (List.mem_map_of_mem Prod.fst he)
    rw [h] at hk
    cases hg : mget e.1 n
    · rw [hg] at hk
      simp at hk
    · simp
  have h2 : p.filter (fun e => (mget e.1 n).isSome) = p := by
    rw [List.filter_eq_self]
    intro e he
    have hk : (mget e.1 p).isSome = true :=
      (mget_isSome_iff e.1 p).mpr (List.mem_map_of_mem Prod.fst he)
    rw [h] at hk
    exact hk
  have h3 : n.filter (fun e => (mget e.1 p).isNone) = [] := by
    rw [List.filter_eq_nil_iff]
    intro e he
    have hk : (mget e.1 n).isSome = true :=
      (mget_isSome_iff e.1 n).mpr (List.mem_map_of_mem Prod.fst he)
    rw [← h] at hk
    cases hg : mget e.1 p
    · rw [hg] at hk
      simp at hk
    · simp
  simp only [SecondaryLayer.Sync, h1, h2, h3]
  simp

theorem leafSync_again (p n : SecondaryLayer K2 F) (a d a' d' : Option (K2 → Event K1 K2 F)) :
    SecondaryLayer.Sync (SecondaryLayer.Sync p n a d).prev n a' d'
      = ⟨(SecondaryLayer.Sync p n a d).prev, n, []⟩ :=
  leafSync_of_same_keys _ _ _ _ (fun k => isSome_mget_leafSync_prev k p n a d)

theorem count_flatMap_eq_zero {α β : Type} [DecidableEq β] (l : List α) (g : α → List β)
    (x : β) (h : ∀ e ∈ l, x ∉ g e) : List.count x (l.flatMap g) = 0 := by
  rw [List.count_eq_zero]
  intro hmem
  obtain ⟨e, he, hx⟩ := List.mem_flatMap.mp hmem
  exact h e he hx

theorem count_add_flatMap (key k1 : K1) (k2 : K2) (l : SecondaryLayer K2 F) :
    List.count (Event.add k1 k2 : Event K1 K2 F)
        (l.flatMap (fun e => callback (some (fun key2 => Event.add key key2)) e.1))
      = if key = k1 then List.count k2 (mkeys l) else 0 := by
  induction l with
  | nil => simp [mkeys]
  | cons e t ih =>
    obtain ⟨a, fl⟩ := e
    simp only [mkeys] at ih
    rw [List.flatMap_cons, List.count_append, ih]
    simp only [mkeys, List.map_cons, callback, List.count_cons, List.count_nil]
    by_cases hk : key = k1
    · by_cases ha : a = k2
      · simp [hk, ha, Nat.add_comm]
      · simp [hk, ha]
    · simp [hk]

theorem count_add_runFinalizers (k1 : K1) (k2 : K2) (fs : FinalizerList F) :
    List.count (Event.add k1 k2 : Event K1 K2 F) (runFinalizers fs) = 0 := by
  rw [List.count_eq_zero]
  simp [runFinalizers]

theorem count_del_runFinalizers (k1 : K1) (k2 : K2) (fs : FinalizerList F) :
    List.count (Event.del k1 k2 : Event K1 K2 F) (runFinalizers fs) = 0 := by
  rw [List.count_eq_zero]
  simp [runFinalizers]

theorem count_del_flatMap (key k1 : K1) (k2 : K2) (l : SecondaryLayer K2 F) :
    List.count (Event.del k1 k2 : Event K1 K2 F)
        (l.flatMap (fun e => callback (some (fun key2 => Event.del key key2)) e.1
          ++ runFinalizers e.2))
      = if key = k1 then List.count k2 (mkeys l) else 0 := by
  induction l with
  | nil => simp [mkeys]
  | cons e t ih =>
    obtain ⟨a, fl⟩ := e
    simp only [mkeys] at ih
    rw [List.flatMap_cons, List.count_append, List.count_append, ih, count_del_runFinalizers]
    simp only [mkeys, List.map_cons, callback, List.count_cons, List.count_nil]
    by_cases hk : key = k1
    · by_cases ha : a = k2
      · simp [hk, ha, Nat.add_comm]
      · simp [hk, ha]
    · simp [hk]

/-- A callback that never records the event `x`. -/
theorem not_mem_callback (cb : Option (K2 → Event K1 K2 F)) (x : Event K1 K2 F) (k : K2)
    (h : ∀ f, cb = some f → ∀ k, f k ≠ x) : x ∉ callback cb k := by
  cases cb with
  | none => simp [callback]
  | some f =>
    simp only [callback, List.mem_singleton]
    exact fun c => h f rfl k c.symm

theorem count_leafSync_add (key k1 : K1) (k2 : K2) (p n : SecondaryLayer K2 F)
    (hn : (mkeys n).Nodup) (d : Option (K2 → Event K1 K2 F))
    (hd : ∀ f, d = some f → ∀ k, f k ≠ Event.add k1 k2) :
    List.count (Event.add k1 k2)
        (SecondaryLayer.Sync p n (some (fun key2 => Event.add key key2)) d).events
      = if key = k1 ∧ (mget k2 n).isSome = true ∧ (mget k2 p).isNone = true then 1 else 0 := by
  simp only [SecondaryLayer.Sync, List.count_append]
  rw [count_flatMap_eq_zero, count_add_flatMap,
    count_mkeys_filter_key k2 (fun x => (mget x p).isNone) n hn]
  · by_cases hk : key = k1 <;> simp [hk, and_comm]
  · intro e _ hmem
    rcases List.mem_append.mp hmem with h | h
    · exact not_mem_callback d _ e.1 hd h
    · simp [runFinalizers] at h

theorem count_leafSync_del (key k1 : K1) (k2 : K2) (p n : SecondaryLayer K2 F)
    (hp : (mkeys p).Nodup) (a : Option (K2 → Event K1 K2 F))
    (ha : ∀ f, a = some f → ∀ k, f k ≠ Event.del k1 k2) :
    List.count (Event.del k1 k2)
        (SecondaryLayer.Sync p n a (some (fun key2 => Event.del key key2))).events
      = if key = k1 ∧ (mget k2 p).isSome = true ∧ (mget k2 n).isNone = true then 1 else 0 := by
  simp only [SecondaryLayer.Sync, List.count_append]
  rw [count_del_flatMap, count_mkeys_filter_key k2 (fun x => (mget x n).isNone) p hp,
    count_flatMap_eq_zero]
  · by_cases hk : key = k1 <;> simp [hk, and_comm]
  · intro e _ hmem
    exact not_mem_callback a _ e.1 ha hmem

theorem count_leafSync_no_add (k1 : K1) (k2 : K2) (p n : SecondaryLayer K2 F)
    (d : Option (K2 → Event K1 K2 F))
    (hd : ∀ f, d = some f → ∀ k, f k ≠ Event.add k1 k2) :
    List.count (Event.add k1 k2) (SecondaryLayer.Sync p n none d).events = 0 := by
  simp only [SecondaryLayer.Sync, List.count_append]
  rw [count_flatMap_eq_zero, count_flatMap_eq_zero]
  · intro e _ hmem
    simp [callback] at hmem
  · intro e _ hmem
    rcases List.mem_append.mp hmem with h | h
    · exact not_mem_callback d _ e.1 hd h
    · simp [runFinalizers] at h

theorem count_leafSync_no_del (k1 : K1) (k2 : K2) (p n : SecondaryLayer K2 F)
    (a : Option (K2 → Event K1 K2 F))
    (ha : ∀ f, a = some f → ∀ k, f k ≠ Event.del k1 k2) :
    List.count (Event.del k1 k2) (SecondaryLayer.Sync p n a none).events = 0 := by
  simp only [SecondaryLayer.Sync, List.count_append]
  rw [count_flatMap_eq_zero, count_flatMap_eq_zero]
  · intro e _ hmem
    exact not_mem_callback a _ e.1 ha hmem
  · intro e _ hmem
    rcases List.mem_append.mp hmem with h | h
    · simp [callback] at h
    · simp [runFinalizers] at h

end LeafSync

/-! ## The two loops of `Sync` -/

section SyncLoops

variable {K1 K2 F : Type} [DecidableEq K1] [DecidableEq K2] [DecidableEq F]

theorem partialSync_eq (key : K1) (l nl : SecondaryLayer K2 F)
    (a d : Option (K1 → K2 → Event K1 K2 F)) :
    partialSync key l nl a d
      = SecondaryLayer.Sync l nl (a.map (fun f => fun key2 => f key key2))
          (d.map (fun f => fun key2 => f key key2)) := by
  cases a <;> cases d <;> rfl

theorem partialSync_next (key : K1) (l nl : SecondaryLayer K2 F)
    (a d : Option (K1 → K2 → Event K1 K2 F)) : (partialSync key l nl a d).next = nl := by
  rw [partialSync_eq]
  rfl

theorem syncPrevBody_next (a d : Option (K1 → K2 → Event K1 K2 F))
    (st : SyncResult (dumbmap2d K1 K2 F) (Event K1 K2 F)) (key : K1) :
    (syncPrevBody a d st key).next = st.next := by
  unfold syncPrevBody
  cases hp : mget key st.prev with
  | none => rfl
  | some layer =>
    cases hn : mget key st.next with
    | none => cases d <;> rfl
    | some nextLayer =>
      simp only [partialSync_next]
      exact mset_mget_self key nextLayer st.next hn

theorem mget_syncPrevBody_prev (a d : Option (K1 → K2 → Event K1 K2 F))
    (st : SyncResult (dumbmap2d K1 K2 F) (Event K1 K2 F)) (key k : K1) :
    mget k (syncPrevBody a d st key).prev
      = if k = key then prevBodyLayer a d key (mget key st.prev) (mget key st.next)
        else mget k st.prev := by
  unfold syncPrevBody prevBodyLayer
  cases hp : mget key st.prev with
  | none =>
    by_cases hk : k = key
    · simp [hk, hp]
    · simp [hk]
  | some layer =>
    cases hn : mget key st.next with
    | none => cases d <;> simp [mget_mdel]
    | some nextLayer => simp [mget_mset]

theorem syncPrevBody_events (a d : Option (K1 → K2 → Event K1 K2 F))
    (st : SyncResult (dumbmap2d K1 K2 F) (Event K1 K2 F)) (key : K1) :
    (syncPrevBody a d st key).events
      = st.events ++ prevBodyEvents a d key (mget key st.prev) (mget key st.next) := by
  unfold syncPrevBody prevBodyEvents
  cases hp : mget key st.prev with
  | none => simp
  | some layer =>
    cases hn : mget key st.next with
    | none => cases d <;> simp
    | some nextLayer => simp

theorem nodup_syncPrevBody_prev (a d : Option (K1 → K2 → Event K1 K2 F))
    (st : SyncResult (dumbmap2d K1 K2 F) (Event K1 K2 F)) (key : K1)
    (h : (mkeys st.prev).Nodup) : (mkeys (syncPrevBody a d st key).prev).Nodup := by
  unfold syncPrevBody
  cases hp : mget key st.prev with
  | none => exact h
  | some layer =>
    cases hn : mget key st.next with
    | none => cases d <;> exact nodup_mkeys_mdel key _ h
    | some nextLayer => exact nodup_mkeys_mset key _ _ h

theorem syncNextBody_next (a d : Option (K1 → K2 → Event K1 K2 F))
    (st : SyncResult (dumbmap2d K1 K2 F) (Event K1 K2 F)) (key : K1) :
    (syncNextBody a d st key).next = st.next := by
  unfold syncNextBody
  cases hn : mget key st.next with
  | none => rfl
  | some layer =>
    cases hp : mget key st.prev with
    | none =>
      cases a with
      | none => rfl
      | some f =>
        simp only [leafSync_next]
        exact mset_mget_self key layer st.next hn
    | some prevLayer =>
      simp only [partialSync_next]
      exact mset_mget_self key layer st.next hn

theorem mget_syncNextBody_prev (a d : Option (K1 → K2 → Event K1 K2 F))
    (st : SyncResult (dumbmap2d K1 K2 F) (Event K1 K2 F)) (key k : K1) :
    mget k (syncNextBody a d st key).prev
      = if k = key then nextBodyLayer a d key (mget key st.prev) (mget key st.next)
        else mget k st.prev := by
  unfold syncNextBody nextBodyLayer
  cases hn : mget key st.next with
  | none =>
    by_cases hk : k = key
    · simp [hk]
    · simp [hk]
  | some layer =>
    cases hp : mget key st.prev with
    | none =>
      by_cases hk : k = key
      · cases a <;> simp [mget_mset, hk]
      · cases a <;> simp [mget_mset, hk]
    | some prevLayer => simp [mget_mset]

theorem syncNextBody_events (a d : Option (K1 → K2 → Event K1 K2 F))
    (st : SyncResult (dumbmap2d K1 K2 F) (Event K1 K2 F)) (key : K1) :
    (syncNextBody a d st key).events
      = st.events ++ nextBodyEvents a d key (mget key st.prev) (mget key st.next) := by
  unfold syncNextBody nextBodyEvents
  cases hn : mget key st.next with
  | none => simp
  | some layer =>
    cases hp : mget key st.prev with
    | none => cases a <;> simp
    | some prevLayer => simp

theorem nodup_syncNextBody_prev (a d : Option (K1 → K2 → Event K1 K2 F))
    (st : SyncResult (dumbmap2d K1 K2 F) (Event K1 K2 F)) (key : K1)
    (h : (mkeys st.prev).Nodup) : (mkeys (syncNextBody a d st key).prev).Nodup := by
  unfold syncNextBody
  cases hn : mget key st.next with
  | none => exact h
  | some layer =>
    cases hp : mget key st.prev with
    | none =>
      cases a with
      | none => exact nodup_mkeys_mset key _ _ h
      | some f => exact nodup_mkeys_mset key _ _ (nodup_mkeys_mset key _ _ h)
    | some prevLayer => exact nodup_mkeys_mset key _ _ h

theorem syncPrevLoop_next (a d : Option (K1 → K2 → Event K1 K2 F)) (ks : List K1)
    (st : SyncResult (dumbmap2d K1 K2 F) (Event K1 K2 F)) :
    (syncPrevLoop a d ks st).next = st.next := by
  induction ks generalizing st with
  | nil => rfl
  | cons key rest ih =>
    simp only [syncPrevLoop, List.foldl_cons] at ih ⊢
    rw [ih, syncPrevBody_next]

theorem syncNextLoop_next (a d : Option (K1 → K2 → Event K1 K2 F)) (ks : List K1)
    (st : SyncResult (dumbmap2d K1 K2 F) (Event K1 K2 F)) :
    (syncNextLoop a d ks st).next = st.next := by
  induction ks generalizing st with
  | nil => rfl
  | cons key rest ih =>
    simp only [syncNextLoop, List.foldl_cons] at ih ⊢
    rw [ih, syncNextBody_next]

theorem nodup_syncPrevLoop_prev (a d : Option (K1 → K2 → Event K1 K2 F)) (ks : List K1)
    (st : SyncResult (dumbmap2d K1 K2 F) (Event K1 K2 F)) (h : (mkeys st.prev).Nodup) :
    (mkeys (syncPrevLoop a d ks st).prev).Nodup := by
  induction ks generalizing st with
  | nil => exact h
  | cons key rest ih =>
    simp only [syncPrevLoop, List.foldl_cons] at ih ⊢
    exact ih _ (nodup_syncPrevBody_prev a d st key h)

theorem nodup_syncNextLoop_prev (a d : Option (K1 → K2 → Event K1 K2 F)) (ks : List K1)
    (st : SyncResult (dumbmap2d K1 K2 F) (Event K1 K2 F)) (h : (mkeys st.prev).Nodup) :
    (mkeys (syncNextLoop a d ks st).prev).Nodup := by
  induction ks generalizing st with
  | nil => exact h
  | cons key rest ih =>
    simp only [syncNextLoop, List.foldl_cons] at ih ⊢
    exact ih _ (nodup_syncNextBody_prev a d st key h)

theorem mget_syncPrevLoop_prev (a d : Option (K1 → K2 → Event K1 K2 F)) (ks : List K1)
    (hks : ks.Nodup) (st : SyncResult (dumbmap2d K1 K2 F) (Event K1 K2 F)) (k : K1) :
    mget k (syncPrevLoop a d ks st).prev
      = if k ∈ ks then prevBodyLayer a d k (mget k st.prev) (mget k st.next)
        else mget k st.prev := by
  induction ks generalizing st with
  | nil => simp [syncPrevLoop]
  | cons key rest ih =>
    rw [List.nodup_cons] at hks
    simp only [syncPrevLoop, List.foldl_cons] at ih ⊢
    rw [ih hks.2, syncPrevBody_next, mget_syncPrevBody_prev]
    by_cases hk : k = key
    · subst hk
      simp [hks.1]
    · simp [hk]

theorem mget_syncNextLoop_prev (a d : Option (K1 → K2 → Event K1 K2 F)) (ks : List K1)
    (hks : ks.Nodup) (st : SyncResult (dumbmap2d K1 K2 F) (Event K1 K2 F)) (k : K1) :
    mget k (syncNextLoop a d ks st).prev
      = if k ∈ ks then nextBodyLayer a d k (mget k st.prev) (mget k st.next)
        else mget k st.prev := by
  induction ks generalizing st with
  | nil => simp [syncNextLoop]
  | cons key rest ih =>
    rw [List.nodup_cons] at hks
    simp only [syncNextLoop, List.foldl_cons] at ih ⊢
    rw [ih hks.2, syncNextBody_next, mget_syncNextBody_prev]
    by_cases hk : k = key
    · subst hk
      simp [hks.1]
    · simp [hk]

theorem syncPrevLoop_events (a d : Option (K1 → K2 → Event K1 K2 F)) (ks : List K1)
    (hks : ks.Nodup) (st : SyncResult (dumbmap2d K1 K2 F) (Event K1 K2 F)) :
    (syncPrevLoop a d ks st).events
      = st.events
        ++ ks.flatMap (fun key => prevBodyEvents a d key (mget key st.prev) (mget key st.next)) := by
  induction ks generalizing st with
  | nil => simp [syncPrevLoop]
  | cons key rest ih =>
    rw [List.nodup_cons] at hks
    simp only [syncPrevLoop, List.foldl_cons] at ih ⊢
    rw [ih hks.2, syncPrevBody_events, List.flatMap_cons, List.append_assoc]
    congr 2
    apply List.flatMap_congr
    intro key' hmem
    have hne : key' ≠ key := fun c => hks.1 (c ▸ hmem)
    rw [syncPrevBody_next, mget_syncPrevBody_prev, if_neg hne]

theorem syncNextLoop_events (a d : Option (K1 → K2 → Event K1 K2 F)) (ks : List K1)
    (hks : ks.Nodup) (st : SyncResult (dumbmap2d K1 K2 F) (Event K1 K2 F)) :
    (syncNextLoop a d ks st).events
      = st.events
        ++ ks.flatMap (fun key => nextBodyEvents a d key (mget key st.prev) (mget key st.next)) := by
  induction ks generalizing st with
  | nil => simp [syncNextLoop]
  | cons key rest ih =>
    rw [List.nodup_cons] at hks
    simp only [syncNextLoop, List.foldl_cons] at ih ⊢
    rw [ih hks.2, syncNextBody_events, List.flatMap_cons, List.append_assoc]
    congr 2
    apply List.flatMap_congr
    intro key' hmem
    have hne : key' ≠ key := fun c => hks.1 (c ▸ hmem)
    rw [syncNextBody_next, mget_syncNextBody_prev, if_neg hne]

/-! ## `Sync` in closed form -/

theorem Sync_next (A B : dumbmap2d K1 K2 F) (a d : Option (K1 → K2 → Event K1 K2 F)) :
    (Sync A B a d).next = B := by
  simp only [Sync]
  rw [syncNextLoop_next, syncPrevLoop_next]

theorem nodup_Sync_prev (A B : dumbmap2d K1 K2 F) (a d : Option (K1 → K2 → Event K1 K2 F))
    (hA : (mkeys A).Nodup) : (mkeys (Sync A B a d).prev).Nodup := by
  simp only [Sync]
  exact nodup_syncNextLoop_prev a d _ _ (nodup_syncPrevLoop_prev a d _ _ hA)

theorem mget_Sync_prev (A B : dumbmap2d K1 K2 F) (a d : Option (K1 → K2 → Event K1 K2 F))
    (hA : (mkeys A).Nodup) (hB : (mkeys B).Nodup) (k : K1) :
    mget k (Sync A B a d).prev
      = nextBodyLayer a d k (prevBodyLayer a d k (mget k A) (mget k B)) (mget k B) := by
  have h1 : ∀ x, mget x (syncPrevLoop a d (mkeys A) ⟨A, B, []⟩).prev
      = prevBodyLayer a d x (mget x A) (mget x B) := by
    intro x
    rw [mget_syncPrevLoop_prev a d _ hA]
    by_cases hx : x ∈ mkeys A
    · simp [hx]
    · have : mget x A = none := (mget_eq_none_iff x A).mpr hx
      simp [hx, this, prevBodyLayer]
  simp only [Sync]
  rw [syncPrevLoop_next, mget_syncNextLoop_prev a d _ hB, syncPrevLoop_next, h1]
  by_cases hk : k ∈ mkeys B
  · simp [hk]
  · have : mget k B = none := (mget_eq_none_iff k B).mpr hk
    simp [hk, this, nextBodyLayer]

theorem Sync_events (A B : dumbmap2d K1 K2 F) (a d : Option (K1 → K2 → Event K1 K2 F))
    (hA : (mkeys A).Nodup) (hB : (mkeys B).Nodup) :
    (Sync A B a d).events
      = (mkeys A).flatMap (fun key => prevBodyEvents a d key (mget key A) (mget key B))
        ++ (mkeys B).flatMap (fun key =>
            nextBodyEvents a d key (prevBodyLayer a d key (mget key A) (mget key B))
              (mget key B)) := by
  have h1 : ∀ x, mget x (syncPrevLoop a d (mkeys A) ⟨A, B, []⟩).prev
      = prevBodyLayer a d x (mget x A) (mget x B) := by
    intro x
    rw [mget_syncPrevLoop_prev a d _ hA]
    by_cases hx : x ∈ mkeys A
    · simp [hx]
    · have : mget x A = none := (mget_eq_none_iff x A).mpr hx
      simp [hx, this, prevBodyLayer]
  simp only [Sync]
  rw [syncPrevLoop_next, syncNextLoop_events a d _ hB, syncPrevLoop_events a d _ hA]
  simp only [List.nil_append, syncPrevLoop_next, h1]

theorem count_flatMap_key {α β : Type} [DecidableEq α] [DecidableEq β] (ks : List α)
    (hnd : ks.Nodup) (g : α → List β) (x : β) (k : α)
    (h : ∀ key ∈ ks, key ≠ k → x ∉ g key) :
    List.count x (ks.flatMap g) = if k ∈ ks then List.count x (g k) else 0 := by
  induction ks with
  | nil => simp
  | cons key rest ih =>
    rw [List.nodup_cons] at hnd
    have ih' := ih hnd.2 (fun y hy => h y (List.mem_cons_of_mem _ hy))
    rw [List.flatMap_cons, List.count_append, ih']
    by_cases hk : key = k
    · subst hk
      simp [hnd.1]
    · have hk' : ¬ k = key := fun c => hk c.symm
      have : x ∉ g key := h key (List.mem_cons_self _ _) hk
      simp [hk', List.count_eq_zero_of_not_mem this]

/-- The number of occurrences in the trace of `Sync` of an effect that only the
iterations for the primary key `k1` can produce. -/
theorem count_Sync_events (A B : dumbmap2d K1 K2 F) (a d : Option (K1 → K2 → Event K1 K2 F))
    (hA : (mkeys A).Nodup) (hB : (mkeys B).Nodup) (x : Event K1 K2 F) (k1 : K1)
    (h1 : ∀ key lp ln, key ≠ k1 → x ∉ prevBodyEvents a d key lp ln)
    (h2 : ∀ key lp ln, key ≠ k1 → x ∉ nextBodyEvents a d key lp ln) :
    List.count x (Sync A B a d).events
      = List.count x (prevBodyEvents a d k1 (mget k1 A) (mget k1 B))
        + List.count x (nextBodyEvents a d k1 (prevBodyLayer a d k1 (mget k1 A) (mget k1 B))
            (mget k1 B)) := by
  rw [Sync_events A B a d hA hB, List.count_append,
    count_flatMap_key (mkeys A) hA _ x k1 (fun key _ hne => h1 key _ _ hne),
    count_flatMap_key (mkeys B) hB _ x k1 (fun key _ hne => h2 key _ _ hne)]
  congr 1
  · by_cases hk : k1 ∈ mkeys A
    · simp [hk]
    · have : mget k1 A = none := (mget_eq_none_iff k1 A).mpr hk
      simp [hk, this, prevBodyEvents]
  · by_cases hk : k1 ∈ mkeys B
    · simp [hk]
    · have : mget k1 B = none := (mget_eq_none_iff k1 B).mpr hk
      simp [hk, this, nextBodyEvents]

end SyncLoops

/-! ## Maps built by `Put`, `Delete` and `Drop` -/

section Built

variable {K1 K2 F : Type} [DecidableEq K1] [DecidableEq K2]

theorem mset_mset {K V : Type} [DecidableEq K] (k : K) (v w : V) (m : List (K × V)) :
    mset k v (mset k w m) = mset k v m := by
  induction m with
  | nil => simp [mset]
  | cons e t ih =>
    obtain ⟨a, u⟩ := e
    by_cases ha : a = k
    · simp [mset, ha]
    · simp [mset, ha, ih]

theorem mset_ne_nil {K V : Type} [DecidableEq K] (k : K) (v : V) (m : List (K × V)) :
    mset k v m ≠ [] := by
  cases m with
  | nil => simp [mset]
  | cons e t =>
    obtain ⟨a, u⟩ := e
    by_cases ha : a = k <;> simp [mset, ha]

theorem Put_eq (b : dumbmap2d K1 K2 F) (key1 : K1) (key2 : K2) (fs : List F) :
    Put b key1 key2 fs
      = mset key1 (SecondaryLayer.Put ((mget key1 b).getD []) key2 fs) b := by
  unfold Put
  cases h : mget key1 b with
  | none => simp [mset_mset, NewSecondaryLayer]
  | some layer => simp

theorem leafPut_eq (l : SecondaryLayer K2 F) (key2 : K2) (fs : List F) :
    SecondaryLayer.Put l key2 fs = mset key2 ((mget key2 l).getD [] ++ fs) l := by
  unfold SecondaryLayer.Put
  cases h : mget key2 l <;> simp

theorem nodup_layer_of_mget (b : dumbmap2d K1 K2 F) (hb : KeysUnique b) (k : K1)
    (l : SecondaryLayer K2 F) (h : mget k b = some l) : (mkeys l).Nodup :=
  hb.2 (k, l) (mem_of_mget k l b h)

theorem KeysUnique_Put (b : dumbmap2d K1 K2 F) (key1 : K1) (key2 : K2) (fs : List F)
    (hb : KeysUnique b) : KeysUnique (Put b key1 key2 fs) := by
  rw [Put_eq]
  refine ⟨nodup_mkeys_mset _ _ _ hb.1, ?_⟩
  intro e he
  rcases mem_mset _ _ _ _ he with h | h
  · subst h
    rw [leafPut_eq]
    apply nodup_mkeys_mset
    cases hg : mget key1 b with
    | none => simp [mkeys]
    | some l => simpa using nodup_layer_of_mget b hb key1 l hg
  · exact hb.2 e h

theorem NoEmptyLayer_Put (b : dumbmap2d K1 K2 F) (key1 : K1) (key2 : K2) (fs : List F)
    (hb : NoEmptyLayer b) : NoEmptyLayer (Put b key1 key2 fs) := by
  rw [Put_eq]
  intro e he
  rcases mem_mset _ _ _ _ he with h | h
  · subst h
    rw [leafPut_eq]
    simp only [SecondaryLayer.Len, ne_eq, List.length_eq_zero]
    exact mset_ne_nil _ _ _
  · exact hb e h

theorem KeysUnique_Delete (b : dumbmap2d K1 K2 F) (key1 : K1) (key2 : K2)
    (hb : KeysUnique b) : KeysUnique (Delete b key1 key2).store := by
  unfold Delete
  cases hg : mget key1 b with
  | none => exact hb
  | some layer =>
    have hl : (mkeys layer).Nodup := nodup_layer_of_mget b hb key1 layer hg
    have hr : (mkeys (SecondaryLayer.Delete layer key2 :
        OpResult (SecondaryLayer K2 F) (Event K1 K2 F)).store).Nodup := by
      unfold SecondaryLayer.Delete
      cases mget key2 layer with
      | none => exact hl
      | some fl => exact nodup_mkeys_mdel _ _ hl
    have h1 : KeysUnique (mset key1 (SecondaryLayer.Delete layer key2 :
        OpResult (SecondaryLayer K2 F) (Event K1 K2 F)).store b) := by
      refine ⟨nodup_mkeys_mset _ _ _ hb.1, ?_⟩
      intro e he
      rcases mem_mset _ _ _ _ he with h | h
      · subst h
        exact hr
      · exact hb.2 e h
    simp only
    split
    · exact ⟨nodup_mkeys_mdel _ _ h1.1, fun e he => h1.2 e (mem_mdel _ _ _ he).1⟩
    · exact h1

theorem NoEmptyLayer_Delete (b : dumbmap2d K1 K2 F) (key1 : K1) (key2 : K2)
    (hb : NoEmptyLayer b) : NoEmptyLayer (Delete b key1 key2).store := by
  unfold Delete
  cases hg : mget key1 b with
  | none => exact hb
  | some layer =>
    simp only
    split
    · intro e he
      have h := mem_mdel _ _ _ he
      rcases mem_mset _ _ _ _ h.1 with h1 | h1
      · exact absurd (by rw [h1]) h.2
      · exact hb e h1
    · rename_i hlen
      intro e he
      rcases mem_mset _ _ _ _ he with h1 | h1
      · subst h1
        exact hlen
      · exact hb e h1

theorem KeysUnique_Drop (b : dumbmap2d K1 K2 F) (key1 : K1)
    (hb : KeysUnique b) : KeysUnique (Drop b key1).store := by
  unfold Drop
  cases hg : mget key1 b with
  | none => exact ⟨nodup_mkeys_mdel _ _ hb.1, fun e he => hb.2 e (mem_mdel _ _ _ he).1⟩
  | some layer =>
    refine ⟨nodup_mkeys_mdel _ _ (nodup_mkeys_mset _ _ _ hb.1), ?_⟩
    intro e he
    have h := mem_mdel _ _ _ he
    rcases mem_mset _ _ _ _ h.1 with h1 | h1
    · exact absurd (by rw [h1]) h.2
    · exact hb.2 e h1

theorem NoEmptyLayer_Drop (b : dumbmap2d K1 K2 F) (key1 : K1)
    (hb : NoEmptyLayer b) : NoEmptyLayer (Drop b key1).store := by
  unfold Drop
  cases hg : mget key1 b with
  | none => exact fun e he => hb e (mem_mdel _ _ _ he).1
  | some layer =>
    intro e he
    have h := mem_mdel _ _ _ he
    rcases mem_mset _ _ _ _ h.1 with h1 | h1
    · exact absurd (by rw [h1]) h.2
    · exact hb e h1

theorem invariants_foldl (ops : List (Op K1 K2 F)) (b : dumbmap2d K1 K2 F)
    (hb : KeysUnique b ∧ NoEmptyLayer b) :
    KeysUnique (ops.foldl Op.apply b) ∧ NoEmptyLayer (ops.foldl Op.apply b) := by
  induction ops generalizing b with
  | nil => exact hb
  | cons op rest ih =>
    rw [List.foldl_cons]
    apply ih
    cases op with
    | put key1 key2 fs => exact ⟨KeysUnique_Put _ _ _ _ hb.1, NoEmptyLayer_Put _ _ _ _ hb.2⟩
    | delete key1 key2 => exact ⟨KeysUnique_Delete _ _ _ hb.1, NoEmptyLayer_Delete _ _ _ hb.2⟩
    | drop key1 => exact ⟨KeysUnique_Drop _ _ hb.1, NoEmptyLayer_Drop _ _ hb.2⟩

theorem KeysUnique_build (ops : List (Op K1 K2 F)) : KeysUnique (build ops) :=
  (invariants_foldl ops New ⟨⟨List.nodup_nil, fun _ h => absurd h (List.not_mem_nil _)⟩,
    fun _ h => absurd h (List.not_mem_nil _)⟩).1

theorem NoEmptyLayer_build (ops : List (Op K1 K2 F)) : NoEmptyLayer (build ops) :=
  (invariants_foldl ops New ⟨⟨List.nodup_nil, fun _ h => absurd h (List.not_mem_nil _)⟩,
    fun _ h => absurd h (List.not_mem_nil _)⟩).2

/-! ## Enumeration -/

theorem ForEach_eq (b : dumbmap2d K1 K2 F) (fn : K1 → SecondaryLayer K2 F → Bool) :
    ForEach b fn = b := by
  induction b with
  | nil => rfl
  | cons e t ih =>
    obtain ⟨k, l⟩ := e
    simp [ForEach, ih]

theorem leafForEach_true (l : SecondaryLayer K2 F) :
    SecondaryLayer.ForEach l (fun _ _ => true) = l := by
  induction l with
  | nil => rfl
  | cons e t ih =>
    obtain ⟨k, fl⟩ := e
    simp [SecondaryLayer.ForEach, ih]

theorem mem_pairs_iff (b : dumbmap2d K1 K2 F) (hb : (mkeys b).Nodup) (key1 : K1) (key2 : K2) :
    (key1, key2) ∈ pairs b ↔ hasPair b key1 key2 = true := by
  simp only [pairs, ForEach_eq, leafForEach_true, List.mem_flatMap, List.mem_map, hasPair]
  constructor
  · rintro ⟨c, hc, e, he, heq⟩
    obtain ⟨k, l⟩ := c
    simp only [Prod.mk.injEq] at heq
    obtain ⟨h1, h2⟩ := heq
    subst h1
    rw [mget_of_mem k l b hb hc]
    simp only
    rw [mget_isSome_iff, ← h2]
    exact List.mem_map_of_mem Prod.fst he
  · intro h
    cases hg : mget key1 b with
    | none => simp [hg] at h
    | some l =>
      simp only [hg] at h
      rw [mget_isSome_iff] at h
      obtain ⟨e, he, hk⟩ := List.mem_map.mp h
      exact ⟨(key1, l), mem_of_mget key1 l b hg, e, he, by rw [hk]⟩

end Built

/-! ## What `Sync` does to the pairs, and which callbacks it invokes -/

section SyncFacts

variable {K1 K2 F : Type} [DecidableEq K1] [DecidableEq K2] [DecidableEq F]

theorem hasPair_Sync_prev (A B : dumbmap2d K1 K2 F) (hA : (mkeys A).Nodup)
    (hB : (mkeys B).Nodup) (f : K1 → K2 → Event K1 K2 F)
    (d : Option (K1 → K2 → Event K1 K2 F)) (key1 : K1) (key2 : K2) :
    hasPair (Sync A B (some f) d).prev key1 key2 = hasPair B key1 key2 := by
  unfold hasPair
  rw [mget_Sync_prev A B _ d hA hB]
  cases hb : mget key1 B with
  | none => cases ha : mget key1 A <;> simp [nextBodyLayer, prevBodyLayer]
  | some nl =>
    cases ha : mget key1 A with
    | none => simp [nextBodyLayer, prevBodyLayer, isSome_mget_leafSync_prev]
    | some l => simp [nextBodyLayer, prevBodyLayer, partialSync_eq, isSome_mget_leafSync_prev]

theorem mem_leafSync_events (p n : SecondaryLayer K2 F) (a d : Option (K2 → Event K1 K2 F))
    (x : Event K1 K2 F) (h : x ∈ (SecondaryLayer.Sync p n a d).events) :
    (∃ f k, a = some f ∧ x = f k) ∨ (∃ f k, d = some f ∧ x = f k) ∨ (∃ f, x = Event.fin f) := by
  simp only [SecondaryLayer.Sync, List.mem_append, List.mem_flatMap] at h
  rcases h with ⟨e, _, he⟩ | ⟨e, _, he⟩
  · rcases he with he | he
    · cases d with
      | none => simp [callback] at he
      | some f =>
        simp only [callback, List.mem_singleton] at he
        exact Or.inr (Or.inl ⟨f, e.1, rfl, he⟩)
    · simp only [runFinalizers, List.mem_map] at he
      obtain ⟨g, _, hg⟩ := he
      exact Or.inr (Or.inr ⟨g, hg.symm⟩)
  · cases a with
    | none => simp [callback] at he
    | some f =>
      simp only [callback, List.mem_singleton] at he
      exact Or.inl ⟨f, e.1, rfl, he⟩

theorem mem_partialSync_events (key : K1) (l nl : SecondaryLayer K2 F)
    (a d : Option (K1 → K2 → Event K1 K2 F)) (x : Event K1 K2 F)
    (h : x ∈ (partialSync key l nl a d).events) :
    (∃ f k, a = some f ∧ x = f key k) ∨ (∃ f k, d = some f ∧ x = f key k)
      ∨ (∃ f, x = Event.fin f) := by
  rw [partialSync_eq] at h
  rcases mem_leafSync_events _ _ _ _ x h with ⟨f, k, hf, hx⟩ | ⟨f, k, hf, hx⟩ | hfin
  · cases a with
    | none => simp at hf
    | some g =>
      simp only [Option.map_some', Option.some.injEq] at hf
      exact Or.inl ⟨g, k, rfl, by rw [hx, ← hf]⟩
  · cases d with
    | none => simp at hf
    | some g =>
      simp only [Option.map_some', Option.some.injEq] at hf
      exact Or.inr (Or.inl ⟨g, k, rfl, by rw [hx, ← hf]⟩)
  · exact Or.inr (Or.inr hfin)

/-- Every effect of one iteration is a callback invoked with the key of the
iteration, or a finalizer. -/
theorem mem_prevBodyEvents (a d : Option (K1 → K2 → Event K1 K2 F)) (key : K1)
    (lp ln : Option (SecondaryLayer K2 F)) (x : Event K1 K2 F)
    (h : x ∈ prevBodyEvents a d key lp ln) :
    (∃ f k, a = some f ∧ x = f key k) ∨ (∃ f k, d = some f ∧ x = f key k)
      ∨ (∃ f, x = Event.fin f) := by
  unfold prevBodyEvents at h
  cases lp with
  | none => simp at h
  | some l =>
    cases ln with
    | some nl => exact mem_partialSync_events key l nl a d x h
    | none =>
      cases d with
      | none => simp at h
      | some g =>
        rcases mem_leafSync_events _ _ _ _ x h with ⟨f, k, hf, _⟩ | ⟨f, k, hf, hx⟩ | hfin
        · simp at hf
        · simp only [Option.some.injEq] at hf
          exact Or.inr (Or.inl ⟨g, k, rfl, by rw [hx, ← hf]⟩)
        · exact Or.inr (Or.inr hfin)

theorem mem_nextBodyEvents (a d : Option (K1 → K2 → Event K1 K2 F)) (key : K1)
    (lp ln : Option (SecondaryLayer K2 F)) (x : Event K1 K2 F)
    (h : x ∈ nextBodyEvents a d key lp ln) :
    (∃ f k, a = some f ∧ x = f key k) ∨ (∃ f k, d = some f ∧ x = f key k)
      ∨ (∃ f, x = Event.fin f) := by
  unfold nextBodyEvents at h
  cases ln with
  | none => simp at h
  | some nl =>
    cases lp with
    | some l => exact mem_partialSync_events key l nl a d x h
    | none =>
      cases a with
      | none => simp at h
      | some g =>
        rcases mem_leafSync_events _ _ _ _ x h with ⟨f, k, hf, hx⟩ | ⟨f, k, hf, _⟩ | hfin
        · simp only [Option.some.injEq] at hf
          exact Or.inl ⟨g, k, rfl, by rw [hx, ← hf]⟩
        · simp at hf
        · exact Or.inr (Or.inr hfin)

theorem supplied_eq_some (given : Bool) (r f : K1 → K2 → Event K1 K2 F)
    (h : supplied given r = some f) : f = r := by
  cases given with
  | false => simp [supplied] at h
  | true =>
    simp only [supplied, if_true, Option.some.injEq] at h
    exact h.symm

/-- With recording callbacks, `onAdd(k1, _)` is invoked only in the iterations
for the primary key `k1`. -/
theorem add_not_mem_of_ne (ga gd : Bool) (key k1 : K1) (k2 : K2) (hne : key ≠ k1)
    (x : Event K1 K2 F) (hx : x = Event.add k1 k2)
    (h : (∃ f k, supplied ga Event.add = some f ∧ x = f key k)
      ∨ (∃ f k, supplied gd Event.del = some f ∧ x = f key k)
      ∨ (∃ f, x = (Event.fin f : Event K1 K2 F))) : False := by
  subst hx
  rcases h with ⟨f, k, hf, hx⟩ | ⟨f, k, hf, hx⟩ | ⟨f, hx⟩
  · rw [supplied_eq_some _ _ _ hf] at hx
    simp only [Event.add.injEq] at hx
    exact hne hx.1.symm
  · rw [supplied_eq_some _ _ _ hf] at hx
    simp at hx
  · simp at hx

theorem del_not_mem_of_ne (ga gd : Bool) (key k1 : K1) (k2 : K2) (hne : key ≠ k1)
    (x : Event K1 K2 F) (hx : x = Event.del k1 k2)
    (h : (∃ f k, supplied ga Event.add = some f ∧ x = f key k)
      ∨ (∃ f k, supplied gd Event.del = some f ∧ x = f key k)
      ∨ (∃ f, x = (Event.fin f : Event K1 K2 F))) : False := by
  subst hx
  rcases h with ⟨f, k, hf, hx⟩ | ⟨f, k, hf, hx⟩ | ⟨f, hx⟩
  · rw [supplied_eq_some _ _ _ hf] at hx
    simp at hx
  · rw [supplied_eq_some _ _ _ hf] at hx
    simp only [Event.del.injEq] at hx
    exact hne hx.1.symm
  · simp at hx

theorem wrapped_del_ne_add (gd : Bool) (key k1 : K1) (k2 : K2) :
    ∀ f, (supplied gd (Event.del : K1 → K2 → Event K1 K2 F)).map
        (fun g => fun key2 => g key key2) = some f → ∀ k, f k ≠ Event.add k1 k2 := by
  intro f hf k
  cases gd with
  | false => simp [supplied] at hf
  | true =>
    simp only [supplied, if_true, Option.map_some', Option.some.injEq] at hf
    rw [← hf]
    simp

theorem wrapped_add_ne_del (ga : Bool) (key k1 : K1) (k2 : K2) :
    ∀ f, (supplied ga (Event.add : K1 → K2 → Event K1 K2 F)).map
        (fun g => fun key2 => g key key2) = some f → ∀ k, f k ≠ Event.del k1 k2 := by
  intro f hf k
  cases ga with
  | false => simp [supplied] at hf
  | true =>
    simp only [supplied, if_true, Option.map_some', Option.some.injEq] at hf
    rw [← hf]
    simp

/-- Number of invocations `onAdd(k1, k2)` during `Sync` when `onAdd` is supplied. -/
theorem count_add_Sync (A B : dumbmap2d K1 K2 F) (hA : KeysUnique A) (hB : KeysUnique B)
    (gd : Bool) (k1 : K1) (k2 : K2) :
    List.count (Event.add k1 k2)
        (Sync A B (some Event.add) (supplied gd Event.del)).events
      = if (hasPair B k1 k2 && !hasPair A k1 k2) = true then 1 else 0 := by
  have hs : (some Event.add : Option (K1 → K2 → Event K1 K2 F)) = supplied true Event.add := rfl
  rw [count_Sync_events A B _ _ hA.1 hB.1 (Event.add k1 k2) k1
    (fun key lp ln hne hmem => add_not_mem_of_ne true gd key k1 k2 hne _ rfl
      (hs ▸ mem_prevBodyEvents _ _ key lp ln _ hmem))
    (fun key lp ln hne hmem => add_not_mem_of_ne true gd key k1 k2 hne _ rfl
      (hs ▸ mem_nextBodyEvents _ _ key lp ln _ hmem))]
  unfold hasPair
  cases hb : mget k1 B with
  | none =>
    cases ha : mget k1 A with
    | none => simp [prevBodyEvents, nextBodyEvents, prevBodyLayer]
    | some l =>
      cases gd with
      | false => simp [prevBodyEvents, nextBodyEvents, prevBodyLayer, supplied]
      | true =>
        simp only [prevBodyEvents, nextBodyEvents, prevBodyLayer, supplied, if_true]
        rw [count_leafSync_no_add]
        · simp
        · intro f hf k
          simp only [Option.some.injEq] at hf
          rw [← hf]
          simp
  | some nl =>
    have hnl : (mkeys nl).Nodup := nodup_layer_of_mget B hB k1 nl hb
    cases ha : mget k1 A with
    | none =>
      simp only [prevBodyEvents, nextBodyEvents, prevBodyLayer]
      rw [count_leafSync_add k1 k1 k2 _ nl hnl none (by simp)]
      simp [NewSecondaryLayer, mget]
    | some l =>
      simp only [prevBodyEvents, nextBodyEvents, prevBodyLayer]
      rw [partialSync_eq, partialSync_eq, leafSync_again]
      simp only [Option.map_some']
      rw [count_leafSync_add k1 k1 k2 l nl hnl _ (wrapped_del_ne_add gd k1 k1 k2)]
      simp [← Option.not_isSome, Bool.not_eq_true]

/-- Number of invocations `onDel(k1, k2)` during `Sync` when `onDel` is supplied. -/
theorem count_del_Sync (A B : dumbmap2d K1 K2 F) (hA : KeysUnique A) (hB : KeysUnique B)
    (ga : Bool) (k1 : K1) (k2 : K2) :
    List.count (Event.del k1 k2)
        (Sync A B (supplied ga Event.add) (some Event.del)).events
      = if (hasPair A k1 k2 && !hasPair B k1 k2) = true then 1 else 0 := by
  have hs : (some Event.del : Option (K1 → K2 → Event K1 K2 F)) = supplied true Event.del := rfl
  rw [count_Sync_events A B _ _ hA.1 hB.1 (Event.del k1 k2) k1
    (fun key lp ln hne hmem => del_not_mem_of_ne ga true key k1 k2 hne _ rfl
      (hs ▸ mem_prevBodyEvents _ _ key lp ln _ hmem))
    (fun key lp ln hne hmem => del_not_mem_of_ne ga true key k1 k2 hne _ rfl
      (hs ▸ mem_nextBodyEvents _ _ key lp ln _ hmem))]
  unfold hasPair
  cases ha : mget k1 A with
  | none =>
    cases hb : mget k1 B with
    | none => simp [prevBodyEvents, nextBodyEvents, prevBodyLayer]
    | some nl =>
      cases ga with
      | false => simp [prevBodyEvents, nextBodyEvents, prevBodyLayer, supplied]
      | true =>
        simp only [prevBodyEvents, nextBodyEvents, prevBodyLayer, supplied, if_true]
        rw [count_leafSync_no_del]
        · simp
        · intro f hf k
          simp only [Option.some.injEq] at hf
          rw [← hf]
          simp
  | some l =>
    have hl : (mkeys l).Nodup := nodup_layer_of_mget A hA k1 l ha
    cases hb : mget k1 B with
    | none =>
      simp only [prevBodyEvents, nextBodyEvents, prevBodyLayer]
      rw [count_leafSync_del k1 k1 k2 l _ hl none (by simp)]
      simp [NewSecondaryLayer, mget]
    | some nl =>
      simp only [prevBodyEvents, nextBodyEvents, prevBodyLayer]
      rw [partialSync_eq, partialSync_eq, leafSync_again]
      simp only [Option.map_some']
      rw [count_leafSync_del k1 k1 k2 l nl hl _ (wrapped_add_ne_del ga k1 k1 k2)]
      simp [← Option.not_isSome, Bool.not_eq_true]

end SyncFacts

/-! ## Claims about `Sync` -/

section SyncClaims

variable {K1 K2 F : Type} [DecidableEq K1] [DecidableEq K2] [DecidableEq F]

/-- C1. Sync convergence: for maps A and B built from `New()` by Put/Delete/Drop
and both callbacks supplied, the pairs enumerated from A after
`A.Sync(B, onAdd, onDel)` are exactly the pairs enumerated from B. -/
theorem sync_convergence (opsA opsB : List (Op K1 K2 F))
    (onAdd onDel : K1 → K2 → Event K1 K2 F) (p : K1 × K2) :
    p ∈ pairs (Sync (build opsA) (build opsB) (some onAdd) (some onDel)).prev
      ↔ p ∈ pairs (build opsB) := by
  obtain ⟨key1, key2⟩ := p
  rw [mem_pairs_iff _ (nodup_Sync_prev _ _ _ _ (KeysUnique_build opsA).1),
    mem_pairs_iff _ (KeysUnique_build opsB).1,
    hasPair_Sync_prev _ _ (KeysUnique_build opsA).1 (KeysUnique_build opsB).1]

/-- C2. onAdd exactness: for maps A and B built by Put/Delete/Drop and a supplied
`onAdd` (with `onDel` supplied or nil), `A.Sync(B, onAdd, onDel)` invokes
`onAdd(k1, k2)` exactly once if the pair is in B and was not in A, and not at
all otherwise. -/
theorem sync_onAdd_exact (opsA opsB : List (Op K1 K2 F)) (delGiven : Bool)
    (k1 : K1) (k2 : K2) :
    List.count (Event.add k1 k2)
        (Sync (build opsA) (build opsB) (some Event.add) (supplied delGiven Event.del)).events
      = if (hasPair (build opsB) k1 k2 && !hasPair (build opsA) k1 k2) = true then 1 else 0 :=
  count_add_Sync _ _ (KeysUnique_build opsA) (KeysUnique_build opsB) delGiven k1 k2

/-- C3. onDel exactness: for maps A and B built by Put/Delete/Drop and a supplied
`onDel` (with `onAdd` supplied or nil), `A.Sync(B, onAdd, onDel)` invokes
`onDel(k1, k2)` exactly once if the pair was in A and is not in B, and not at
all otherwise; and on A = `{(1,x),(1,y),(2,z)}`, B = `{(1,x),(3,w)}` the calls
are `onDel(1,y)`, `onDel(2,z)`, `onAdd(3,w)` and A ends as `{(1,x),(3,w)}`. -/
theorem sync_onDel_exact :
    (∀ (opsA opsB : List (Op K1 K2 F)) (addGiven : Bool) (k1 : K1) (k2 : K2),
      List.count (Event.del k1 k2)
          (Sync (build opsA) (build opsB) (supplied addGiven Event.add) (some Event.del)).events
        = if (hasPair (build opsA) k1 k2 && !hasPair (build opsB) k1 k2) = true then 1 else 0)
    ∧ (Sync scenarioA scenarioB (some Event.add) (some Event.del)).events
        = [Event.del 1 "y", Event.del 2 "z", Event.add 3 "w"]
    ∧ pairs (Sync scenarioA scenarioB (some Event.add) (some Event.del)).prev
        = [(1, "x"), (3, "w")] :=
  ⟨fun opsA opsB addGiven k1 k2 =>
      count_del_Sync _ _ (KeysUnique_build opsA) (KeysUnique_build opsB) addGiven k1 k2,
    by decide, by decide⟩

/-- C4. At the failing input A = `New()`, B = `{(1,x)}`: after `A.Sync(B, nil, nil)`
the primary key 1 is in A with an empty layer, so the pair `(1,x)` of B is not
among the pairs of A. -/
theorem sync_nil_callbacks_misses_pair :
    (Sync New singleX none none).prev = [(1, [])]
    ∧ pairs (Sync New singleX none none).prev = []
    ∧ pairs singleX = [(1, "x")] := by
  decide

/-- C5. At the failing input A = `{(2,z)}` with finalizer 13 attached, B = `New()`:
`A.Sync(B, nil, nil)` removes the pair from A and runs nothing, while the same
call with `onDel` supplied runs the finalizer. -/
theorem sync_nil_onDel_skips_finalizer :
    hasPair singleZ 2 "z" = true
    ∧ finalizersOf singleZ 2 "z" = some [13]
    ∧ (Sync singleZ New none none).prev = []
    ∧ (Sync singleZ New none none).events = []
    ∧ (Sync singleZ New none (some Event.del)).events = [Event.del 2 "z", Event.fin 13] := by
  decide

/-- C6. Sync does not modify next: for all maps A and B and every choice of
callbacks, B after `A.Sync(B, onAdd, onDel)` is B as before: same primary
keys, same secondary keys under each, same finalizer list for each pair. -/
theorem sync_next_unchanged (A B : dumbmap2d K1 K2 F)
    (onAdd onDel : Option (K1 → K2 → Event K1 K2 F)) :
    (Sync A B onAdd onDel).next = B
    ∧ mkeys (Sync A B onAdd onDel).next = mkeys B
    ∧ (∀ key1, (mget key1 (Sync A B onAdd onDel).next).map mkeys = (mget key1 B).map mkeys)
    ∧ (∀ key1 key2,
        finalizersOf (Sync A B onAdd onDel).next key1 key2 = finalizersOf B key1 key2) := by
  have h := Sync_next A B onAdd onDel
  refine ⟨h, ?_, ?_, ?_⟩
  · rw [h]
  · intro key1
    rw [h]
  · intro key1 key2
    rw [h]

/-- C7. At the failing input A = `New()`, B = `{(1,x)}`: after `A.Sync(B, nil, nil)`
the primary key 1 of A is mapped to a layer with zero secondary keys. -/
theorem sync_nil_onAdd_maps_empty_layer :
    mget 1 (Sync New singleX none none).prev = some []
    ∧ (mget 1 (Sync New singleX none none).prev).map SecondaryLayer.Len = some 0
    ∧ ¬ NoEmptyLayer (Sync New singleX none none).prev := by
  refine ⟨by decide, by decide, ?_⟩
  intro h
  exact h (1, []) (by decide) rfl

end SyncClaims

/-! ## Claims about `Delete` -/

section DeleteClaims

variable {K1 K2 F : Type} [DecidableEq K1] [DecidableEq K2] [DecidableEq F]

theorem hasPair_eq_isSome (b : dumbmap2d K1 K2 F) (key1 : K1) (key2 : K2) :
    hasPair b key1 key2 = (finalizersOf b key1 key2).isSome := by
  unfold hasPair finalizersOf
  cases mget key1 b <;> rfl

theorem length_eq_zero_mget {K V : Type} [DecidableEq K] (k : K) (m : List (K × V))
    (h : m.length = 0) : mget k m = none := by
  rw [List.length_eq_zero] at h
  subst h
  rfl

/-- The bool returned by `Delete` tells whether the pair was in the map. -/
theorem Delete_ok (b : dumbmap2d K1 K2 F) (key1 : K1) (key2 : K2) :
    (Delete b key1 key2).ok = hasPair b key1 key2 := by
  unfold Delete hasPair
  cases hg : mget key1 b with
  | none => rfl
  | some layer =>
    simp only [SecondaryLayer.Delete]
    cases hl : mget key2 layer <;> simp <;> split <;> rfl

/-- The effects of `Delete` are the finalizers of the pair, in attachment order. -/
theorem Delete_events (b : dumbmap2d K1 K2 F) (key1 : K1) (key2 : K2) :
    (Delete b key1 key2).events
      = runFinalizers ((finalizersOf b key1 key2).getD []) := by
  unfold Delete finalizersOf
  cases hg : mget key1 b with
  | none => rfl
  | some layer =>
    simp only [SecondaryLayer.Delete]
    cases hl : mget key2 layer <;> simp <;> split <;> rfl

theorem mget_leafDelete_store (l : SecondaryLayer K2 F) (key2 k2 : K2) :
    mget k2 (SecondaryLayer.Delete l key2 :
        OpResult (SecondaryLayer K2 F) (Event K1 K2 F)).store
      = if k2 = key2 then none else mget k2 l := by
  unfold SecondaryLayer.Delete
  cases hl : mget key2 l with
  | none =>
    by_cases h2 : k2 = key2
    · subst h2
      simp [hl]
    · simp [h2]
  | some fl => simp [mget_mdel]

theorem mget_Delete_store (b : dumbmap2d K1 K2 F) (key1 k1 : K1) (key2 : K2) :
    mget k1 (Delete b key1 key2).store
      = if k1 = key1 then
          (match mget key1 b with
            | none => none
            | some layer =>
              if SecondaryLayer.Len (SecondaryLayer.Delete layer key2 :
                  OpResult (SecondaryLayer K2 F) (Event K1 K2 F)).store = 0 then none
              else some (SecondaryLayer.Delete layer key2 :
                  OpResult (SecondaryLayer K2 F) (Event K1 K2 F)).store)
        else mget k1 b := by
  unfold Delete
  cases hg : mget key1 b with
  | none =>
    by_cases h1 : k1 = key1
    · subst h1
      simp [hg]
    · simp [h1]
  | some layer =>
    simp only
    by_cases hlen : SecondaryLayer.Len (SecondaryLayer.Delete layer key2 :
        OpResult (SecondaryLayer K2 F) (Event K1 K2 F)).store = 0
    · by_cases h1 : k1 = key1
      · simp [hlen, mget_mdel, h1]
      · simp [hlen, mget_mdel, mget_mset, h1]
    · by_cases h1 : k1 = key1
      · simp [hlen, mget_mset, h1]
      · simp [hlen, mget_mset, h1]

/-- After `Delete` the pair is gone and every other pair keeps its finalizer list. -/
theorem finalizersOf_Delete (b : dumbmap2d K1 K2 F) (key1 k1 : K1) (key2 k2 : K2) :
    finalizersOf (Delete b key1 key2).store k1 k2
      = if k1 = key1 ∧ k2 = key2 then none else finalizersOf b k1 k2 := by
  unfold finalizersOf
  rw [mget_Delete_store]
  by_cases h1 : k1 = key1
  · subst h1
    cases hg : mget k1 b with
    | none => simp
    | some layer =>
      simp only [if_true, true_and]
      by_cases hlen : SecondaryLayer.Len (SecondaryLayer.Delete layer key2 :
          OpResult (SecondaryLayer K2 F) (Event K1 K2 F)).store = 0
      · have h0 := length_eq_zero_mget k2 _ hlen
        rw [mget_leafDelete_store] at h0
        simp only [hlen, if_true]
        exact h0.symm
      · simp only [hlen, if_false]
        exact mget_leafDelete_store layer key2 k2
  · simp [h1]

/-- On a map without empty layers, a `Delete` that returns false changes nothing. -/
theorem Delete_of_not_ok (b : dumbmap2d K1 K2 F) (hb : NoEmptyLayer b) (key1 : K1) (key2 : K2)
    (h : (Delete b key1 key2).ok = false) :
    (Delete b key1 key2).store = b ∧ (Delete b key1 key2).events = [] := by
  unfold Delete at h ⊢
  cases hg : mget key1 b with
  | none => exact ⟨rfl, rfl⟩
  | some layer =>
    have hne : SecondaryLayer.Len layer ≠ 0 := hb (key1, layer) (mem_of_mget key1 layer b hg)
    simp only [hg, SecondaryLayer.Delete] at h ⊢
    cases hl : mget key2 layer with
    | none =>
      simp only [hne, if_false]
      exact ⟨mset_mget_self key1 layer b hg, trivial⟩
    | some fl =>
      simp only [hl] at h
      split at h <;> simp at h

theorem finalizersOf_Put_self (b : dumbmap2d K1 K2 F) (key1 : K1) (key2 : K2) (fs : List F) :
    finalizersOf (Put b key1 key2 fs) key1 key2
      = some ((finalizersOf b key1 key2).getD [] ++ fs) := by
  rw [Put_eq, leafPut_eq]
  unfold finalizersOf
  cases hg : mget key1 b with
  | none => simp [mget_mset, mget]
  | some layer => simp [mget_mset]

/-- C8. Delete fires finalizers exactly once: after `Put(k1, k2, f1, f2)` on a map
where the pair was absent, `Delete(k1, k2)` runs `f1` then `f2`, each once, and
returns true; a second `Delete(k1, k2)` returns false and runs nothing. -/
theorem delete_fires_finalizers_once (b : dumbmap2d K1 K2 F) (k1 : K1) (k2 : K2) (f1 f2 : F)
    (habsent : hasPair b k1 k2 = false) :
    (Delete (Put b k1 k2 [f1, f2]) k1 k2).events = [Event.fin f1, Event.fin f2]
    ∧ (Delete (Put b k1 k2 [f1, f2]) k1 k2).ok = true
    ∧ (Delete (Delete (Put b k1 k2 [f1, f2]) k1 k2).store k1 k2).ok = false
    ∧ (Delete (Delete (Put b k1 k2 [f1, f2]) k1 k2).store k1 k2).events = [] := by
  have h0 : finalizersOf b k1 k2 = none := by
    rw [hasPair_eq_isSome] at habsent
    cases hf : finalizersOf b k1 k2 with
    | none => rfl
    | some v => simp [hf] at habsent
  have h1 : finalizersOf (Put b k1 k2 [f1, f2]) k1 k2 = some [f1, f2] := by
    rw [finalizersOf_Put_self, h0]
    rfl
  have h2 : finalizersOf (Delete (Put b k1 k2 [f1, f2]) k1 k2).store k1 k2 = none := by
    rw [finalizersOf_Delete]
    simp
  refine ⟨?_, ?_, ?_, ?_⟩
  · rw [Delete_events, h1]
    rfl
  · rw [Delete_ok, hasPair_eq_isSome, h1]
    rfl
  · rw [Delete_ok, hasPair_eq_isSome, h2]
    rfl
  · rw [Delete_events, h2]
    rfl

/-- Witness for C8 on the empty map, keys `(1, "x")` and finalizers 10 and 11. -/
theorem delete_fires_finalizers_once_witness :
    hasPair (New : dumbmap2d Nat String Nat) 1 "x" = false
    ∧ (Delete (Put (New : dumbmap2d Nat String Nat) 1 "x" [10, 11]) 1 "x").events
        = [Event.fin 10, Event.fin 11]
    ∧ (Delete (Put (New : dumbmap2d Nat String Nat) 1 "x" [10, 11]) 1 "x").ok = true
    ∧ (Delete (Delete (Put (New : dumbmap2d Nat String Nat) 1 "x" [10, 11]) 1 "x").store
        1 "x").ok = false
    ∧ (Delete (Delete (Put (New : dumbmap2d Nat String Nat) 1 "x" [10, 11]) 1 "x").store
        1 "x").events = [] :=
  ⟨by decide, delete_fires_finalizers_once New 1 "x" 10 11 (by decide)⟩

/-- C9. Delete reports existence and removes only its pair: on a map built by
Put/Delete/Drop, `Delete(k1, k2)` returns true exactly when the pair was
present; afterwards the pair is absent and every other pair has the finalizer
list it had; and if it returned false the map is unchanged and no finalizer ran. -/
theorem delete_reports_existence (ops : List (Op K1 K2 F)) (k1 : K1) (k2 : K2) :
    (Delete (build ops) k1 k2).ok = hasPair (build ops) k1 k2
    ∧ hasPair (Delete (build ops) k1 k2).store k1 k2 = false
    ∧ (∀ (key1 : K1) (key2 : K2),
        finalizersOf (Delete (build ops) k1 k2).store key1 key2
          = if key1 = k1 ∧ key2 = k2 then none else finalizersOf (build ops) key1 key2)
    ∧ ((Delete (build ops) k1 k2).ok = true
        ∨ ((Delete (build ops) k1 k2).store = build ops
            ∧ (Delete (build ops) k1 k2).events = [])) := by
  refine ⟨Delete_ok _ _ _, ?_, fun key1 key2 => finalizersOf_Delete _ _ _ _ _, ?_⟩
  · rw [hasPair_eq_isSome, finalizersOf_Delete]
    simp
  · cases hok : (Delete (build ops) k1 k2).ok with
    | true => exact Or.inl rfl
    | false => exact Or.inr (Delete_of_not_ok _ (NoEmptyLayer_build ops) k1 k2 hok)

/-- C10. Empty-layer pruning on Delete: on a map built by Put/Delete/Drop where
`k2` is the only secondary key under `k1`, after `Delete(k1, k2)` a `ForEach`
does not yield `k1` and yields every other primary key it yielded before. -/
theorem delete_prunes_empty_layer (ops : List (Op K1 K2 F)) (k1 : K1) (k2 : K2)
    (l : SecondaryLayer K2 F) (fn : K1 → SecondaryLayer K2 F → Bool)
    (hl : mget k1 (build ops) = some l) (honly : mkeys l = [k2]) :
    k1 ∉ mkeys (ForEach (Delete (build ops) k1 k2).store fn)
    ∧ ∀ key, key ≠ k1 →
        (key ∈ mkeys (ForEach (Delete (build ops) k1 k2).store fn)
          ↔ key ∈ mkeys (ForEach (build ops) fn)) := by
  have hk2 : (mget k2 l).isSome = true := by
    rw [mget_isSome_iff, honly]
    exact List.mem_singleton_self k2
  have hdel : mdel k2 l = [] := mdel_eq_nil_of_keys k2 l (by
    intro x hx
    rw [honly] at hx
    exact List.mem_singleton.mp hx)
  have hstore : (Delete (build ops) k1 k2).store = mdel k1 (mset k1 [] (build ops)) := by
    unfold Delete
    simp only [hl, SecondaryLayer.Delete]
    cases hg : mget k2 l with
    | none => simp [hg] at hk2
    | some fl => simp [hdel, SecondaryLayer.Len]
  rw [ForEach_eq, ForEach_eq, hstore]
  refine ⟨fun h => ((mem_mkeys_mdel _ _ _).mp h).1 rfl, fun key hne => ?_⟩
  rw [mem_mkeys_mdel, mem_mkeys_mset]
  constructor
  · rintro ⟨_, h | h⟩
    · exact absurd h hne
    · exact h
  · exact fun h => ⟨hne, Or.inr h⟩

/-- Witness for C10 on the map `{(1,"x"), (1,"y"), (2,"z")}` and the pair `(2,"z")`. -/
theorem delete_prunes_empty_layer_witness :
    mget 2 (build [Op.put 1 "x" [], Op.put 1 "y" [], Op.put 2 "z" ([] : List Nat)])
        = some [("z", [])]
    ∧ mkeys ([("z", [])] : SecondaryLayer String Nat) = ["z"]
    ∧ 2 ∉ mkeys (ForEach (Delete
        (build [Op.put 1 "x" [], Op.put 1 "y" [], Op.put 2 "z" ([] : List Nat)]) 2 "z").store
          (fun _ _ => false))
    ∧ ∀ key, key ≠ 2 →
        (key ∈ mkeys (ForEach (Delete
            (build [Op.put 1 "x" [], Op.put 1 "y" [], Op.put 2 "z" ([] : List Nat)])
              2 "z").store (fun _ _ => false))
          ↔ key ∈ mkeys (ForEach
            (build [Op.put 1 "x" [], Op.put 1 "y" [], Op.put 2 "z" ([] : List Nat)])
              (fun _ _ => false))) :=
  ⟨by decide, by decide,
    delete_prunes_empty_layer [Op.put 1 "x" [], Op.put 1 "y" [], Op.put 2 "z" []] 2 "z"
      [("z", [])] (fun _ _ => false) (by decide) (by decide)⟩

end DeleteClaims

/-! ## Claims about `Drop` -/

section DropClaims

variable {K1 K2 F : Type} [DecidableEq K1] [DecidableEq K2] [DecidableEq F]

theorem mdel_of_mget_none {K V : Type} [DecidableEq K] (k : K) (m : List (K × V))
    (h : mget k m = none) : mdel k m = m := by
  induction m with
  | nil => rfl
  | cons e t ih =>
    obtain ⟨a, v⟩ := e
    by_cases ha : a = k
    · simp [mget, ha] at h
    · simp only [mget, ha, if_false] at h
      simp [mdel, ha, ih h]

theorem mget_Drop_store (b : dumbmap2d K1 K2 F) (key1 k : K1) :
    mget k (Drop b key1).store = if k = key1 then none else mget k b := by
  unfold Drop
  cases hg : mget key1 b with
  | none => simp [mget_mdel]
  | some layer =>
    by_cases hk : k = key1
    · simp [mget_mdel, hk]
    · simp [mget_mdel, mget_mset, hk]

theorem Drop_events (b : dumbmap2d K1 K2 F) (key1 : K1) :
    (Drop b key1).events
      = ((mget key1 b).getD []).flatMap (fun e => runFinalizers e.2) := by
  unfold Drop
  cases hg : mget key1 b with
  | none => rfl
  | some layer => rfl

theorem count_fin_runFinalizers (f : F) (fl : FinalizerList F) :
    List.count (Event.fin f : Event K1 K2 F) (runFinalizers fl) = List.count f fl := by
  induction fl with
  | nil => rfl
  | cons g t ih =>
    simp only [runFinalizers, List.map_cons, List.count_cons] at ih ⊢
    rw [ih]
    by_cases hg : g = f <;> simp [hg]

theorem count_fin_finalize (f : F) (l : SecondaryLayer K2 F) :
    List.count (Event.fin f : Event K1 K2 F) (l.flatMap (fun e => runFinalizers e.2))
      = (l.map (fun e => List.count f e.2)).sum := by
  induction l with
  | nil => rfl
  | cons e t ih =>
    rw [List.flatMap_cons, List.count_append, ih, count_fin_runFinalizers]
    simp

theorem sublist_finalize (l : SecondaryLayer K2 F) (e : K2 × FinalizerList F) (he : e ∈ l) :
    List.Sublist (runFinalizers e.2 : List (Event K1 K2 F))
      (l.flatMap (fun x => runFinalizers x.2)) := by
  induction l with
  | nil => simp at he
  | cons x t ih =>
    rw [List.flatMap_cons]
    rcases List.mem_cons.mp he with h | h
    · subst h
      exact List.sublist_append_left _ _
    · exact (ih h).trans (List.sublist_append_right _ _)

/-- C11. Drop finalizes all: when `k1` is a primary key with layer `layer`,
`Drop(k1)` runs exactly the finalizers attached under `k1`, each as many times
as it is attached there and in the attachment order of every secondary key;
afterwards neither `ForEach` nor `ForEach2` yields anything for `k1`. -/
theorem drop_finalizes_all (b : dumbmap2d K1 K2 F) (k1 : K1) (layer : SecondaryLayer K2 F)
    (fn : K1 → SecondaryLayer K2 F → Bool) (gn : K2 → Bool)
    (hpresent : mget k1 b = some layer) :
    (Drop b k1).events = layer.flatMap (fun e => runFinalizers e.2)
    ∧ (∀ f, List.count (Event.fin f) (Drop b k1).events
        = (layer.map (fun e => List.count f e.2)).sum)
    ∧ (∀ k2 fl, mget k2 layer = some fl →
        List.Sublist (runFinalizers fl) (Drop b k1).events)
    ∧ (∀ x ∈ (Drop b k1).events, ∃ f, x = Event.fin f)
    ∧ k1 ∉ mkeys (ForEach (Drop b k1).store fn)
    ∧ ForEach2 (Drop b k1).store k1 gn = [] := by
  have hev : (Drop b k1).events = layer.flatMap (fun e => runFinalizers e.2) := by
    rw [Drop_events, hpresent]
    rfl
  refine ⟨hev, ?_, ?_, ?_, ?_, ?_⟩
  · intro f
    rw [hev, count_fin_finalize]
  · intro k2 fl hfl
    rw [hev]
    exact sublist_finalize layer (k2, fl) (mem_of_mget k2 fl layer hfl)
  · intro x hx
    rw [hev] at hx
    obtain ⟨e, _, he⟩ := List.mem_flatMap.mp hx
    simp only [runFinalizers, List.mem_map] at he
    obtain ⟨g, _, hg⟩ := he
    exact ⟨g, hg.symm⟩
  · rw [ForEach_eq, ← mget_isSome_iff, mget_Drop_store]
    simp
  · unfold ForEach2
    rw [mget_Drop_store]
    simp

/-- Witness for C11: dropping primary key 1 of a map with `(1,"a")` carrying
finalizers 10, 11 and `(1,"b")` carrying finalizer 12. -/
theorem drop_finalizes_all_witness :
    mget 1 (build [Op.put 1 "a" [10, 11], Op.put 1 "b" [12], Op.put 2 "c" [13]])
        = some [("a", [10, 11]), ("b", [12])]
    ∧ (Drop (build [Op.put 1 "a" [10, 11], Op.put 1 "b" [12], Op.put 2 "c" [13]]) 1).events
        = ([("a", [10, 11]), ("b", [12])] : SecondaryLayer String Nat).flatMap
            (fun e => (runFinalizers e.2 : List (Event Nat String Nat)))
    ∧ (∀ f, List.count (Event.fin f)
          (Drop (build [Op.put 1 "a" [10, 11], Op.put 1 "b" [12], Op.put 2 "c" [13]]) 1).events
        = (([("a", [10, 11]), ("b", [12])] : SecondaryLayer String Nat).map
            (fun e => List.count f e.2)).sum)
    ∧ (∀ k2 fl, mget k2 ([("a", [10, 11]), ("b", [12])] : SecondaryLayer String Nat) = some fl →
        List.Sublist (runFinalizers fl)
          (Drop (build [Op.put 1 "a" [10, 11], Op.put 1 "b" [12], Op.put 2 "c" [13]]) 1).events)
    ∧ (∀ x ∈ (Drop (build [Op.put 1 "a" [10, 11], Op.put 1 "b" [12],
          Op.put 2 "c" [13]]) 1).events, ∃ f, x = Event.fin f)
    ∧ 1 ∉ mkeys (ForEach
        (Drop (build [Op.put 1 "a" [10, 11], Op.put 1 "b" [12], Op.put 2 "c" [13]]) 1).store
          (fun _ _ => true))
    ∧ ForEach2
        (Drop (build [Op.put 1 "a" [10, 11], Op.put 1 "b" [12], Op.put 2 "c" [13]]) 1).store
          1 (fun _ => true) = [] :=
  ⟨by decide,
    drop_finalizes_all (build [Op.put 1 "a" [10, 11], Op.put 1 "b" [12], Op.put 2 "c" [13]]) 1
      [("a", [10, 11]), ("b", [12])] (fun _ _ => true) (fun _ => true) (by decide)⟩

/-- C12. Drop reports existence and touches only its key: `Drop(k1)` returns
true exactly when `k1` was a primary key; afterwards `k1` is gone and every
other primary key has the layer it had; and if it returned false the map is
unchanged and no finalizer ran. -/
theorem drop_reports_existence (b : dumbmap2d K1 K2 F) (k1 : K1) :
    (Drop b k1).ok = (mget k1 b).isSome
    ∧ ((Drop b k1).ok = true ↔ k1 ∈ mkeys b)
    ∧ (∀ key, mget key (Drop b k1).store = if key = k1 then none else mget key b)
    ∧ ((Drop b k1).ok = true ∨ ((Drop b k1).store = b ∧ (Drop b k1).events = [])) := by
  have hok : (Drop b k1).ok = (mget k1 b).isSome := by
    unfold Drop
    cases mget k1 b <;> rfl
  refine ⟨hok, ?_, fun key => mget_Drop_store b k1 key, ?_⟩
  · rw [hok, mget_isSome_iff]
  · cases hg : mget k1 b with
    | some layer =>
      left
      rw [hok, hg]
      rfl
    | none =>
      right
      unfold Drop
      simp only [hg]
      exact ⟨mdel_of_mget_none k1 b hg, trivial⟩

end DropClaims

/-! ## Claims about `Put` -/

section PutClaims

variable {K1 K2 F : Type} [DecidableEq K1] [DecidableEq K2] [DecidableEq F]

theorem mget_Put (b : dumbmap2d K1 K2 F) (key1 k : K1) (key2 : K2) (fs : List F) :
    mget k (Put b key1 key2 fs)
      = if k = key1 then some (SecondaryLayer.Put ((mget key1 b).getD []) key2 fs)
        else mget k b := by
  rw [Put_eq, mget_mset]

/-- After `Put` the pair carries its previous finalizers followed by the new
ones, and every other pair keeps its finalizer list. -/
theorem finalizersOf_Put (b : dumbmap2d K1 K2 F) (key1 k1 : K1) (key2 k2 : K2) (fs : List F) :
    finalizersOf (Put b key1 key2 fs) k1 k2
      = if k1 = key1 ∧ k2 = key2 then some ((finalizersOf b key1 key2).getD [] ++ fs)
        else finalizersOf b k1 k2 := by
  unfold finalizersOf
  rw [mget_Put]
  by_cases h1 : k1 = key1
  · subst h1
    simp only [if_true, true_and, leafPut_eq, mget_mset]
    by_cases h2 : k2 = key2
    · subst h2
      cases hg : mget k1 b <;> simp [mget]
    · cases hg : mget k1 b <;> simp [h2, mget]
  · simp [h1]

theorem Put_Put_nil (b : dumbmap2d K1 K2 F) (key1 : K1) (key2 : K2) :
    Put (Put b key1 key2 []) key1 key2 [] = Put b key1 key2 [] := by
  have hL : ∀ l : SecondaryLayer K2 F,
      SecondaryLayer.Put (SecondaryLayer.Put l key2 []) key2 [] = SecondaryLayer.Put l key2 [] := by
    intro l
    rw [leafPut_eq (SecondaryLayer.Put l key2 []), leafPut_eq l, mget_mset, mset_mset]
    simp
  rw [Put_eq (Put b key1 key2 []), mget_Put]
  simp only [if_true, Option.getD_some, hL]
  rw [Put_eq, mset_mset]

/-- C13. Idempotent insertion: on a map with unique keys, `Put(k1, k2)` twice
with no finalizers leaves the state of a single `Put(k1, k2)`: one entry for
`k2` under `k1`, the same number of secondary keys under `k1`, the same
finalizer list for the pair. -/
theorem put_idempotent (b : dumbmap2d K1 K2 F) (k1 : K1) (k2 : K2) (hb : KeysUnique b) :
    Put (Put b k1 k2 []) k1 k2 [] = Put b k1 k2 []
    ∧ (∃ l, mget k1 (Put (Put b k1 k2 []) k1 k2 []) = some l
        ∧ List.count k2 (mkeys l) = 1)
    ∧ (mget k1 (Put (Put b k1 k2 []) k1 k2 [])).map SecondaryLayer.Len
        = (mget k1 (Put b k1 k2 [])).map SecondaryLayer.Len
    ∧ finalizersOf (Put (Put b k1 k2 []) k1 k2 []) k1 k2
        = finalizersOf (Put b k1 k2 []) k1 k2 := by
  have heq := Put_Put_nil b k1 k2
  refine ⟨heq, ?_, by rw [heq], by rw [heq]⟩
  rw [heq]
  have hu := KeysUnique_Put b k1 k2 ([] : List F) hb
  have hg : mget k1 (Put b k1 k2 [])
      = some (SecondaryLayer.Put ((mget k1 b).getD []) k2 []) := by
    rw [mget_Put]
    simp
  refine ⟨_, hg, ?_⟩
  have hnd := nodup_layer_of_mget _ hu k1 _ hg
  apply List.count_eq_one_of_mem hnd
  rw [← mget_isSome_iff, leafPut_eq, mget_mset]
  simp

/-- Witness for C13 on the map `{(1,"x"), (1,"y"), (2,"z")}` and the pair `(1,"x")`. -/
theorem put_idempotent_witness :
    KeysUnique scenarioA
    ∧ Put (Put scenarioA 1 "x" []) 1 "x" [] = Put scenarioA 1 "x" []
    ∧ (∃ l, mget 1 (Put (Put scenarioA 1 "x" []) 1 "x" []) = some l
        ∧ List.count "x" (mkeys l) = 1)
    ∧ (mget 1 (Put (Put scenarioA 1 "x" []) 1 "x" [])).map SecondaryLayer.Len
        = (mget 1 (Put scenarioA 1 "x" [])).map SecondaryLayer.Len
    ∧ finalizersOf (Put (Put scenarioA 1 "x" []) 1 "x" []) 1 "x"
        = finalizersOf (Put scenarioA 1 "x" []) 1 "x" :=
  ⟨KeysUnique_build _, put_idempotent scenarioA 1 "x" (KeysUnique_build _)⟩

/-- C14. Put appends and does not fire: after `Put(k1, k2, fs...)` the pair is
present with its previous finalizer list (empty if it was absent) followed by
`fs`; the layer of `k1` exists; every other pair keeps its finalizer list and
every other primary key its layer.  `Put` has no trace: neither it nor the
layer's `Put` calls a finalizer. -/
theorem put_appends (b : dumbmap2d K1 K2 F) (k1 : K1) (k2 : K2) (fs : List F) :
    hasPair (Put b k1 k2 fs) k1 k2 = true
    ∧ finalizersOf (Put b k1 k2 fs) k1 k2 = some ((finalizersOf b k1 k2).getD [] ++ fs)
    ∧ (mget k1 (Put b k1 k2 fs)).isSome = true
    ∧ (∀ key1 key2, finalizersOf (Put b k1 k2 fs) key1 key2
        = if key1 = k1 ∧ key2 = k2 then some ((finalizersOf b k1 k2).getD [] ++ fs)
          else finalizersOf b key1 key2)
    ∧ (∀ key1, mget key1 (Put b k1 k2 fs)
        = if key1 = k1 then some (SecondaryLayer.Put ((mget k1 b).getD []) k2 fs)
          else mget key1 b) := by
  have hself : finalizersOf (Put b k1 k2 fs) k1 k2
      = some ((finalizersOf b k1 k2).getD [] ++ fs) := by
    rw [finalizersOf_Put]
    simp
  refine ⟨?_, hself, ?_, fun key1 key2 => finalizersOf_Put b k1 key1 k2 key2 fs,
    fun key1 => mget_Put b k1 key1 k2 fs⟩
  · rw [hasPair_eq_isSome, hself]
    rfl
  · rw [mget_Put]
    simp

end PutClaims

/-! ## Further claims about `Sync` -/

section SyncOrder

variable {K1 K2 F : Type} [DecidableEq K1] [DecidableEq K2] [DecidableEq F]

theorem SyncOrd_next (o1 o2 : List K1) (A B : dumbmap2d K1 K2 F)
    (a d : Option (K1 → K2 → Event K1 K2 F)) : (SyncOrd o1 o2 A B a d).next = B := by
  simp only [SyncOrd]
  rw [syncNextLoop_next, syncPrevLoop_next]

theorem Sync_eq_SyncOrd (A B : dumbmap2d K1 K2 F) (a d : Option (K1 → K2 → Event K1 K2 F)) :
    Sync A B a d = SyncOrd (mkeys A) (mkeys B) A B a d := by
  simp only [Sync, SyncOrd]
  rw [syncPrevLoop_next]

theorem mget_prevLoop_of_keys (o1 : List K1) (A B : dumbmap2d K1 K2 F)
    (a d : Option (K1 → K2 → Event K1 K2 F)) (ho1 : o1.Nodup)
    (hm1 : ∀ k, k ∈ o1 ↔ k ∈ mkeys A) (x : K1) :
    mget x (syncPrevLoop a d o1 ⟨A, B, []⟩).prev = prevBodyLayer a d x (mget x A) (mget x B) := by
  rw [mget_syncPrevLoop_prev a d _ ho1]
  by_cases hx : x ∈ o1
  · simp [hx]
  · have : mget x A = none := (mget_eq_none_iff x A).mpr (fun c => hx ((hm1 x).mpr c))
    simp [hx, this, prevBodyLayer]

theorem mget_SyncOrd_prev (o1 o2 : List K1) (A B : dumbmap2d K1 K2 F)
    (a d : Option (K1 → K2 → Event K1 K2 F)) (ho1 : o1.Nodup) (ho2 : o2.Nodup)
    (hm1 : ∀ k, k ∈ o1 ↔ k ∈ mkeys A) (hm2 : ∀ k, k ∈ o2 ↔ k ∈ mkeys B) (k : K1) :
    mget k (SyncOrd o1 o2 A B a d).prev
      = nextBodyLayer a d k (prevBodyLayer a d k (mget k A) (mget k B)) (mget k B) := by
  simp only [SyncOrd]
  rw [mget_syncNextLoop_prev a d _ ho2, syncPrevLoop_next,
    mget_prevLoop_of_keys o1 A B a d ho1 hm1]
  by_cases hk : k ∈ o2
  · simp [hk]
  · have : mget k B = none := (mget_eq_none_iff k B).mpr (fun c => hk ((hm2 k).mpr c))
    simp [hk, this, nextBodyLayer]

theorem SyncOrd_events (o1 o2 : List K1) (A B : dumbmap2d K1 K2 F)
    (a d : Option (K1 → K2 → Event K1 K2 F)) (ho1 : o1.Nodup) (ho2 : o2.Nodup)
    (hm1 : ∀ k, k ∈ o1 ↔ k ∈ mkeys A) :
    (SyncOrd o1 o2 A B a d).events
      = o1.flatMap (fun key => prevBodyEvents a d key (mget key A) (mget key B))
        ++ o2.flatMap (fun key =>
            nextBodyEvents a d key (prevBodyLayer a d key (mget key A) (mget key B))
              (mget key B)) := by
  simp only [SyncOrd]
  rw [syncNextLoop_events a d _ ho2, syncPrevLoop_events a d _ ho1]
  simp only [List.nil_append, syncPrevLoop_next, mget_prevLoop_of_keys o1 A B a d ho1 hm1]

/-- The primary keys of `prev` after `Sync` are those of `next`, whatever the callbacks. -/
theorem isSome_mget_Sync_prev (A B : dumbmap2d K1 K2 F)
    (a d : Option (K1 → K2 → Event K1 K2 F)) (hA : (mkeys A).Nodup) (hB : (mkeys B).Nodup)
    (k : K1) : (mget k (Sync A B a d).prev).isSome = (mget k B).isSome := by
  rw [mget_Sync_prev A B a d hA hB]
  cases hb : mget k B with
  | none => cases ha : mget k A <;> simp [nextBodyLayer, prevBodyLayer]
  | some nl =>
    cases ha : mget k A with
    | none => cases a <;> simp [nextBodyLayer, prevBodyLayer]
    | some l => simp [nextBodyLayer, prevBodyLayer]

/-- Without callbacks every effect of `Sync` is a finalizer. -/
theorem fin_of_mem_Sync_nil (A B : dumbmap2d K1 K2 F) (hA : (mkeys A).Nodup)
    (hB : (mkeys B).Nodup) (x : Event K1 K2 F) (hx : x ∈ (Sync A B none none).events) :
    ∃ f, x = Event.fin f := by
  rw [Sync_events A B none none hA hB] at hx
  rcases List.mem_append.mp hx with h | h
  · obtain ⟨key, _, hk⟩ := List.mem_flatMap.mp h
    rcases mem_prevBodyEvents none none key _ _ x hk with ⟨f, _, hf, _⟩ | ⟨f, _, hf, _⟩ | hfin
    · simp at hf
    · simp at hf
    · exact hfin
  · obtain ⟨key, _, hk⟩ := List.mem_flatMap.mp h
    rcases mem_nextBodyEvents none none key _ _ x hk with ⟨f, _, hf, _⟩ | ⟨f, _, hf, _⟩ | hfin
    · simp at hf
    · simp at hf
    · exact hfin

theorem syncPrevBody_of_Synced (a d : Option (K1 → K2 → Event K1 K2 F))
    (st : SyncResult (dumbmap2d K1 K2 F) (Event K1 K2 F)) (hs : Synced st.prev st.next)
    (key : K1) : syncPrevBody a d st key = st := by
  obtain ⟨P, N, ev⟩ := st
  simp only at hs
  unfold syncPrevBody
  cases hp : mget key P with
  | none => rfl
  | some layer =>
    cases hn : mget key N with
    | none =>
      have := hs.1 key
      rw [hp, hn] at this
      simp at this
    | some nl =>
      simp only
      rw [partialSync_eq, leafSync_of_same_keys layer nl _ _ (hs.2 key layer nl hp hn)]
      simp only [List.append_nil]
      rw [mset_mget_self key layer P hp, mset_mget_self key nl N hn]

theorem syncNextBody_of_Synced (a d : Option (K1 → K2 → Event K1 K2 F))
    (st : SyncResult (dumbmap2d K1 K2 F) (Event K1 K2 F)) (hs : Synced st.prev st.next)
    (key : K1) : syncNextBody a d st key = st := by
  obtain ⟨P, N, ev⟩ := st
  simp only at hs
  unfold syncNextBody
  cases hn : mget key N with
  | none => rfl
  | some nl =>
    cases hp : mget key P with
    | none =>
      have := hs.1 key
      rw [hp, hn] at this
      simp at this
    | some layer =>
      simp only
      rw [partialSync_eq, leafSync_of_same_keys layer nl _ _ (hs.2 key layer nl hp hn)]
      simp only [List.append_nil]
      rw [mset_mget_self key layer P hp, mset_mget_self key nl N hn]

/-- On maps that already agree, `Sync` changes nothing and has no effect. -/
theorem Sync_of_Synced (A B : dumbmap2d K1 K2 F) (a d : Option (K1 → K2 → Event K1 K2 F))
    (hs : Synced A B) : Sync A B a d = ⟨A, B, []⟩ := by
  have h1 : ∀ (ks : List K1) (st : SyncResult (dumbmap2d K1 K2 F) (Event K1 K2 F)),
      Synced st.prev st.next → syncPrevLoop a d ks st = st := by
    intro ks
    induction ks with
    | nil => intro st _; rfl
    | cons key rest ih =>
      intro st hst
      simp only [syncPrevLoop, List.foldl_cons] at ih ⊢
      rw [syncPrevBody_of_Synced a d st hst key]
      exact ih st hst
  have h2 : ∀ (ks : List K1) (st : SyncResult (dumbmap2d K1 K2 F) (Event K1 K2 F)),
      Synced st.prev st.next → syncNextLoop a d ks st = st := by
    intro ks
    induction ks with
    | nil => intro st _; rfl
    | cons key rest ih =>
      intro st hst
      simp only [syncNextLoop, List.foldl_cons] at ih ⊢
      rw [syncNextBody_of_Synced a d st hst key]
      exact ih st hst
  simp only [Sync]
  rw [h1 _ _ hs, h2 _ _ hs]

/-- After a `Sync` with `onAdd` supplied, `prev` agrees with `next`. -/
theorem Synced_Sync (A B : dumbmap2d K1 K2 F) (f : K1 → K2 → Event K1 K2 F)
    (d : Option (K1 → K2 → Event K1 K2 F)) (hA : (mkeys A).Nodup) (hB : (mkeys B).Nodup) :
    Synced (Sync A B (some f) d).prev B := by
  refine ⟨fun k => isSome_mget_Sync_prev A B _ d hA hB k, ?_⟩
  intro k l nl hl hnl k2
  rw [mget_Sync_prev A B _ d hA hB, hnl] at hl
  cases ha : mget k A with
  | none =>
    simp only [ha, prevBodyLayer, nextBodyLayer, Option.some.injEq] at hl
    rw [← hl, isSome_mget_leafSync_prev]
  | some la =>
    simp only [ha, prevBodyLayer, nextBodyLayer, Option.some.injEq] at hl
    rw [← hl, partialSync_eq, isSome_mget_leafSync_prev]

/-- C15. Primary-key convergence: on maps with unique primary keys, after
`A.Sync(B, onAdd, onDel)` the primary keys of A are those of B for every
combination of supplied and nil callbacks, and with both callbacks nil the
only effects are finalizers: no callback is invoked. -/
theorem sync_primary_keys_converge (A B : dumbmap2d K1 K2 F)
    (onAdd onDel : Option (K1 → K2 → Event K1 K2 F))
    (hA : (mkeys A).Nodup) (hB : (mkeys B).Nodup) :
    (∀ k, k ∈ mkeys (Sync A B onAdd onDel).prev ↔ k ∈ mkeys B)
    ∧ (∀ k, k ∈ mkeys (Sync A B none none).prev ↔ k ∈ mkeys B)
    ∧ (∀ x ∈ (Sync A B none none).events, ∃ f, x = Event.fin f)
    ∧ (∀ k1 k2, Event.add k1 k2 ∉ (Sync A B none none).events
        ∧ Event.del k1 k2 ∉ (Sync A B none none).events) := by
  have hkeys : ∀ (a d : Option (K1 → K2 → Event K1 K2 F)) (k : K1),
      k ∈ mkeys (Sync A B a d).prev ↔ k ∈ mkeys B := by
    intro a d k
    rw [← mget_isSome_iff, ← mget_isSome_iff, isSome_mget_Sync_prev A B a d hA hB]
  refine ⟨hkeys onAdd onDel, hkeys none none, fin_of_mem_Sync_nil A B hA hB, ?_⟩
  intro k1 k2
  constructor
  · intro hmem
    obtain ⟨f, hf⟩ := fin_of_mem_Sync_nil A B hA hB _ hmem
    simp at hf
  · intro hmem
    obtain ⟨f, hf⟩ := fin_of_mem_Sync_nil A B hA hB _ hmem
    simp at hf

/-- Witness for C15 on A = `{(1,x),(1,y),(2,z)}`, B = `{(1,x),(3,w)}`, with
`onAdd` supplied and `onDel` nil. -/
theorem sync_primary_keys_converge_witness :
    (mkeys scenarioA).Nodup ∧ (mkeys scenarioB).Nodup
    ∧ (∀ k, k ∈ mkeys (Sync scenarioA scenarioB (some Event.add) none).prev
        ↔ k ∈ mkeys scenarioB)
    ∧ (∀ k, k ∈ mkeys (Sync scenarioA scenarioB none none).prev ↔ k ∈ mkeys scenarioB)
    ∧ (∀ x ∈ (Sync scenarioA scenarioB none none).events, ∃ f, x = Event.fin f)
    ∧ (∀ k1 k2, Event.add k1 k2 ∉ (Sync scenarioA scenarioB none none).events
        ∧ Event.del k1 k2 ∉ (Sync scenarioA scenarioB none none).events) :=
  ⟨by decide, by decide,
    sync_primary_keys_converge scenarioA scenarioB (some Event.add) none
      (by decide) (by decide)⟩

/-- C18. Sync is idempotent: for maps A and B built by Put/Delete/Drop and both
callbacks supplied, a second `A.Sync(B, onAdd, onDel)` right after the first
has an empty trace (no callback, no finalizer) and leaves A, hence its pairs,
as the first call left it. -/
theorem sync_idempotent (opsA opsB : List (Op K1 K2 F))
    (onAdd onDel : K1 → K2 → Event K1 K2 F) :
    (Sync (Sync (build opsA) (build opsB) (some onAdd) (some onDel)).prev
        (Sync (build opsA) (build opsB) (some onAdd) (some onDel)).next
        (some onAdd) (some onDel)).events = []
    ∧ (Sync (Sync (build opsA) (build opsB) (some onAdd) (some onDel)).prev
        (Sync (build opsA) (build opsB) (some onAdd) (some onDel)).next
        (some onAdd) (some onDel)).prev
        = (Sync (build opsA) (build opsB) (some onAdd) (some onDel)).prev
    ∧ (∀ p, p ∈ pairs (Sync (Sync (build opsA) (build opsB) (some onAdd) (some onDel)).prev
          (Sync (build opsA) (build opsB) (some onAdd) (some onDel)).next
          (some onAdd) (some onDel)).prev
        ↔ p ∈ pairs (Sync (build opsA) (build opsB) (some onAdd) (some onDel)).prev) := by
  have hs := Synced_Sync (build opsA) (build opsB) onAdd (some onDel)
    (KeysUnique_build opsA).1 (KeysUnique_build opsB).1
  rw [Sync_next, Sync_of_Synced _ _ _ _ hs]
  exact ⟨rfl, rfl, fun _ => Iff.rfl⟩

/-- C19. Traversal-order independence: on maps with unique primary keys, for
any two orders `o1`, `p1` of the primary keys of A and any two orders `o2`, `p2`
of those of B, `Sync` run with the loops visiting in `o1`, `o2` and run with
`p1`, `p2` give the same layer under every primary key of A, leave B alone,
and produce traces that are permutations of each other (every callback
invocation and finalizer occurs the same number of times). -/
theorem sync_order_independent (A B : dumbmap2d K1 K2 F)
    (onAdd onDel : Option (K1 → K2 → Event K1 K2 F)) (o1 p1 o2 p2 : List K1)
    (hA : (mkeys A).Nodup) (hB : (mkeys B).Nodup)
    (ho1 : List.Perm o1 (mkeys A)) (hp1 : List.Perm p1 (mkeys A))
    (ho2 : List.Perm o2 (mkeys B)) (hp2 : List.Perm p2 (mkeys B)) :
    (∀ k, mget k (SyncOrd o1 o2 A B onAdd onDel).prev
        = mget k (SyncOrd p1 p2 A B onAdd onDel).prev)
    ∧ (SyncOrd o1 o2 A B onAdd onDel).next = (SyncOrd p1 p2 A B onAdd onDel).next
    ∧ List.Perm (SyncOrd o1 o2 A B onAdd onDel).events (SyncOrd p1 p2 A B onAdd onDel).events
    ∧ (∀ x, List.count x (SyncOrd o1 o2 A B onAdd onDel).events
        = List.count x (SyncOrd p1 p2 A B onAdd onDel).events)
    ∧ Sync A B onAdd onDel = SyncOrd (mkeys A) (mkeys B) A B onAdd onDel := by
  have no1 : o1.Nodup := ho1.nodup_iff.mpr hA
  have np1 : p1.Nodup := hp1.nodup_iff.mpr hA
  have no2 : o2.Nodup := ho2.nodup_iff.mpr hB
  have np2 : p2.Nodup := hp2.nodup_iff.mpr hB
  have hperm : List.Perm (SyncOrd o1 o2 A B onAdd onDel).events
      (SyncOrd p1 p2 A B onAdd onDel).events := by
    rw [SyncOrd_events o1 o2 A B onAdd onDel no1 no2 (fun k => ho1.mem_iff),
      SyncOrd_events p1 p2 A B onAdd onDel np1 np2 (fun k => hp1.mem_iff)]
    exact List.Perm.append (List.Perm.flatMap_right _ (ho1.trans hp1.symm))
      (List.Perm.flatMap_right _ (ho2.trans hp2.symm))
  refine ⟨?_, ?_, hperm, fun x => hperm.count_eq x, Sync_eq_SyncOrd A B onAdd onDel⟩
  · intro k
    rw [mget_SyncOrd_prev o1 o2 A B onAdd onDel no1 no2 (fun k => ho1.mem_iff)
        (fun k => ho2.mem_iff),
      mget_SyncOrd_prev p1 p2 A B onAdd onDel np1 np2 (fun k => hp1.mem_iff)
        (fun k => hp2.mem_iff)]
  · rw [SyncOrd_next, SyncOrd_next]

/-- Witness for C19 on A = `{(1,x),(1,y),(2,z)}`, B = `{(1,x),(3,w)}`: the
loops visiting A as 1, 2 and B as 1, 3 against visiting A as 2, 1 and B as 3, 1. -/
theorem sync_order_independent_witness :
    (mkeys scenarioA).Nodup ∧ (mkeys scenarioB).Nodup
    ∧ List.Perm [1, 2] (mkeys scenarioA) ∧ List.Perm [2, 1] (mkeys scenarioA)
    ∧ List.Perm [1, 3] (mkeys scenarioB) ∧ List.Perm [3, 1] (mkeys scenarioB)
    ∧ (∀ k, mget k (SyncOrd [1, 2] [1, 3] scenarioA scenarioB (some Event.add)
          (some Event.del)).prev
        = mget k (SyncOrd [2, 1] [3, 1] scenarioA scenarioB (some Event.add)
          (some Event.del)).prev)
    ∧ (SyncOrd [1, 2] [1, 3] scenarioA scenarioB (some Event.add) (some Event.del)).next
        = (SyncOrd [2, 1] [3, 1] scenarioA scenarioB (some Event.add) (some Event.del)).next
    ∧ List.Perm
        (SyncOrd [1, 2] [1, 3] scenarioA scenarioB (some Event.add) (some Event.del)).events
        (SyncOrd [2, 1] [3, 1] scenarioA scenarioB (some Event.add) (some Event.del)).events
    ∧ (∀ x, List.count x
          (SyncOrd [1, 2] [1, 3] scenarioA scenarioB (some Event.add) (some Event.del)).events
        = List.count x
          (SyncOrd [2, 1] [3, 1] scenarioA scenarioB (some Event.add) (some Event.del)).events)
    ∧ Sync scenarioA scenarioB (some Event.add) (some Event.del)
        = SyncOrd (mkeys scenarioA) (mkeys scenarioB) scenarioA scenarioB (some Event.add)
            (some Event.del) :=
  ⟨by decide, by decide, by decide, by decide, by decide, by decide,
    sync_order_independent scenarioA scenarioB (some Event.add) (some Event.del)
      [1, 2] [2, 1] [1, 3] [3, 1] (by decide) (by decide) (by decide) (by decide)
      (by decide) (by decide)⟩

end SyncOrder

/-! ## Claims about enumeration and the unsupported methods -/

section EnumClaims

variable {K1 K2 F : Type} [DecidableEq K1] [DecidableEq K2] [DecidableEq F]

theorem leafForEach_of_true (l : SecondaryLayer K2 F) (fn : K2 → FinalizerList F → Bool)
    (h : ∀ e ∈ l, fn e.1 e.2 = true) : SecondaryLayer.ForEach l fn = l := by
  induction l with
  | nil => rfl
  | cons e t ih =>
    obtain ⟨k, fl⟩ := e
    have hk : fn k fl = true := h (k, fl) (List.mem_cons_self _ _)
    simp only [SecondaryLayer.ForEach, hk, if_true]
    rw [ih (fun x hx => h x (List.mem_cons_of_mem _ hx))]

/-- The invocations made by the layer's `ForEach` are an initial segment of the layer. -/
theorem leafForEach_initial (l : SecondaryLayer K2 F) (fn : K2 → FinalizerList F → Bool) :
    ∃ rest, SecondaryLayer.ForEach l fn ++ rest = l := by
  induction l with
  | nil => exact ⟨[], rfl⟩
  | cons e t ih =>
    obtain ⟨k, fl⟩ := e
    by_cases hk : fn k fl = true
    · obtain ⟨rest, hrest⟩ := ih
      refine ⟨rest, ?_⟩
      simp only [SecondaryLayer.ForEach, hk, if_true, List.cons_append, hrest]
    · refine ⟨t, ?_⟩
      simp [SecondaryLayer.ForEach, hk]

/-- Every invocation made by the layer's `ForEach` except the last returned true. -/
theorem leafForEach_dropLast (l : SecondaryLayer K2 F) (fn : K2 → FinalizerList F → Bool) :
    ∀ e ∈ (SecondaryLayer.ForEach l fn).dropLast, fn e.1 e.2 = true := by
  induction l with
  | nil => simp [SecondaryLayer.ForEach]
  | cons x t ih =>
    obtain ⟨k, fl⟩ := x
    by_cases hk : fn k fl = true
    · simp only [SecondaryLayer.ForEach, hk, if_true]
      intro e he
      cases hrest : SecondaryLayer.ForEach t fn with
      | nil => simp [hrest] at he
      | cons y ys =>
        rw [hrest, List.dropLast_cons₂] at he
        rcases List.mem_cons.mp he with h | h
        · subst h
          exact hk
        · apply ih
          rw [hrest]
          exact h
    · simp [SecondaryLayer.ForEach, hk]

theorem mem_dropLast_map {α β : Type} (g : α → β) (l : List α) (y : β)
    (h : y ∈ (l.map g).dropLast) : ∃ x ∈ l.dropLast, g x = y := by
  induction l with
  | nil => simp at h
  | cons a t ih =>
    cases t with
    | nil => simp at h
    | cons c u =>
      simp only [List.map_cons, List.dropLast_cons₂] at h ih ⊢
      rcases List.mem_cons.mp h with h1 | h1
      · exact ⟨a, List.mem_cons_self _ _, h1.symm⟩
      · obtain ⟨x, hx, hgx⟩ := ih h1
        exact ⟨x, List.mem_cons_of_mem _ hx, hgx⟩

/-- C16. ForEach2 enumerates one layer: on a map with unique keys, if `key1`
is not a primary key `fn` is never invoked; if it is, with layer `layer`: when
`fn` always returns true it is invoked once for each secondary key of the layer
and for nothing else; in general the keys passed to `fn` are an initial
segment of the layer's keys and every invocation but the last returned true,
so nothing is passed after a false.  `ForEach2` only reads the store. -/
theorem forEach2_enumerates_layer (b : dumbmap2d K1 K2 F) (key1 : K1) (fn : K2 → Bool)
    (hb : KeysUnique b) :
    (mget key1 b = none → ForEach2 b key1 fn = [])
    ∧ (∀ layer, mget key1 b = some layer →
        ((∀ k, fn k = true) →
          ForEach2 b key1 fn = mkeys layer
          ∧ ∀ k, List.count k (ForEach2 b key1 fn)
              = if (mget k layer).isSome = true then 1 else 0)
        ∧ (∃ rest, ForEach2 b key1 fn ++ rest = mkeys layer)
        ∧ (∀ k ∈ (ForEach2 b key1 fn).dropLast, fn k = true)) := by
  constructor
  · intro hnone
    unfold ForEach2
    rw [hnone]
  · intro layer hl
    have hnd : (mkeys layer).Nodup := nodup_layer_of_mget b hb key1 layer hl
    have hF : ForEach2 b key1 fn
        = (SecondaryLayer.ForEach layer (fun k _ => fn k)).map Prod.fst := by
      unfold ForEach2
      rw [hl]
    refine ⟨?_, ?_, ?_⟩
    · intro htrue
      have hall : ForEach2 b key1 fn = mkeys layer := by
        rw [hF, leafForEach_of_true layer _ (fun e _ => htrue e.1)]
        rfl
      refine ⟨hall, fun k => ?_⟩
      rw [hall, List.count_eq_of_nodup hnd]
      simp only [mget_isSome_iff]
    · obtain ⟨rest, hrest⟩ := leafForEach_initial layer (fun k _ => fn k)
      refine ⟨rest.map Prod.fst, ?_⟩
      rw [hF, ← List.map_append, hrest]
      rfl
    · intro k hk
      rw [hF] at hk
      obtain ⟨e, he, hek⟩ := mem_dropLast_map Prod.fst _ k hk
      rw [← hek]
      exact leafForEach_dropLast layer (fun k _ => fn k) e he

/-- Witness for C16 on the map `{(1,"x"), (1,"y"), (2,"z")}`, primary key 1 and
a callback that returns false on `"x"`. -/
theorem forEach2_enumerates_layer_witness :
    KeysUnique scenarioA
    ∧ (mget 1 scenarioA = none → ForEach2 scenarioA 1 (fun k => decide (k ≠ "x")) = [])
    ∧ (∀ layer, mget 1 scenarioA = some layer →
        ((∀ k, (fun k => decide (k ≠ "x")) k = true) →
          ForEach2 scenarioA 1 (fun k => decide (k ≠ "x")) = mkeys layer
          ∧ ∀ k, List.count k (ForEach2 scenarioA 1 (fun k => decide (k ≠ "x")))
              = if (mget k layer).isSome = true then 1 else 0)
        ∧ (∃ rest, ForEach2 scenarioA 1 (fun k => decide (k ≠ "x")) ++ rest = mkeys layer)
        ∧ (∀ k ∈ (ForEach2 scenarioA 1 (fun k => decide (k ≠ "x"))).dropLast,
            (fun k => decide (k ≠ "x")) k = true)) :=
  ⟨KeysUnique_build _,
    forEach2_enumerates_layer scenarioA 1 (fun k => decide (k ≠ "x")) (KeysUnique_build _)⟩

/-- C17. GetLayer and SetLayer always fail: for every map and arguments both
end in the failure "not implemented", return no value, and the store at the
point of failure is the store before the call. -/
theorem getLayer_setLayer_fail (b : dumbmap2d K1 K2 F) (key1 : K1)
    (layer : SecondaryLayer K2 F) :
    (GetLayer b key1).2 = Except.error "not implemented"
    ∧ (SetLayer b key1 layer).2 = Except.error "not implemented"
    ∧ (∀ v, (GetLayer b key1).2 ≠ Except.ok v)
    ∧ (∀ v, (SetLayer b key1 layer).2 ≠ Except.ok v)
    ∧ (GetLayer b key1).1 = b
    ∧ (SetLayer b key1 layer).1 = b := by
  refine ⟨rfl, rfl, ?_, ?_, rfl, rfl⟩
  · intro v h
    simp [GetLayer] at h
  · intro v h
    simp [SetLayer] at h

/-- C20. ForEach ignores the callback's result: on a map with unique primary
keys, `ForEach(fn)` invokes `fn` on exactly the entries of the map, once for
each primary key, whatever `fn` returns, so also for an `fn` that always
returns false; `ForEach` only reads the store. -/
theorem forEach_ignores_result (b : dumbmap2d K1 K2 F) (fn : K1 → SecondaryLayer K2 F → Bool)
    (hb : (mkeys b).Nodup) :
    ForEach b fn = b
    ∧ ForEach b fn = ForEach b (fun _ _ => false)
    ∧ (∀ k, List.count k (mkeys (ForEach b fn)) = if (mget k b).isSome = true then 1 else 0)
    ∧ (ForEach b fn).length = b.length := by
  refine ⟨ForEach_eq b fn, ?_, ?_, ?_⟩
  · rw [ForEach_eq, ForEach_eq]
  · intro k
    rw [ForEach_eq, List.count_eq_of_nodup hb]
    simp only [mget_isSome_iff]
  · rw [ForEach_eq]

/-- Witness for C20 on the map `{(1,"x"), (1,"y"), (2,"z")}` with a callback that
always returns false: both primary keys are visited, while the layer's
`ForEach` with such a callback stops after its first key. -/
theorem forEach_ignores_result_witness :
    (mkeys scenarioA).Nodup
    ∧ (ForEach scenarioA (fun _ _ => false) = scenarioA
      ∧ ForEach scenarioA (fun _ _ => false) = ForEach scenarioA (fun _ _ => false)
      ∧ (∀ k, List.count k (mkeys (ForEach scenarioA (fun _ _ => false)))
          = if (mget k scenarioA).isSome = true then 1 else 0)
      ∧ (ForEach scenarioA (fun _ _ => false)).length = scenarioA.length)
    ∧ mkeys (ForEach scenarioA (fun _ _ => false)) = [1, 2]
    ∧ ForEach2 scenarioA 1 (fun _ => false) = ["x"] :=
  ⟨by decide, forEach_ignores_result scenarioA (fun _ _ => false) (by decide),
    by decide, by decide⟩

end EnumClaims

end Dumbmap2d
